import Mathlib

/-!
Verification development for the Solidity diagram analysis engine.

The definitions below are a shallow embedding of the TypeScript sources:
`src/parser/astTraverser.ts`, `src/analyzer/typeResolver.ts` (TypeResolver),
`src/analyzer/callGraphBuilder.ts` (CallGraphBuilder),
`src/analyzer/stateVariableResolver.ts` (StateVariableResolver) and
`src/analyzer/inheritanceResolver.ts` (InheritanceResolver), over the data
model of `src/types.ts`.

Conventions of the embedding:
* JavaScript strings are Lean `String`s; character-level scans work on
  `String.toList`.
* A JavaScript `Map` (insertion ordered) is an association list
  `List (String × α)`; `Map.set` replaces in place, keeping the original
  insertion position, as in JavaScript.
* A JavaScript `Set<string>` (insertion ordered) is a `List String` with an
  `add` that appends only when the element is absent.
* Nullable values are `Option`s.
* The handful of regular-expression scans in the sources are implemented as
  explicit character scanners with the same matching semantics, documented at
  each definition.
* Unboundedly recursive JavaScript functions (which can overflow the stack on
  cyclic inputs) take an explicit `fuel : Nat`; for every terminating run of
  the JavaScript there is a fuel beyond which the Lean function computes the
  same value.
-/

/-- `SourceLocation` from src/types.ts: a start and end line/column. -/
structure SourceLocation where
  startLine : Nat
  startColumn : Nat
  endLine : Nat
  endColumn : Nat
deriving DecidableEq, Repr

/-- `ParameterInfo` from src/types.ts. -/
structure ParameterInfo where
  name : String
  typeName : String
  storageLocation : Option String
deriving DecidableEq, Repr

/-- `FunctionInfo` from src/types.ts. -/
structure FunctionInfo where
  name : String
  visibility : String
  stateMutability : Option String
  parameters : List ParameterInfo
  returnParameters : List ParameterInfo
  modifiers : List String
  body : String
  fullSource : String
  location : SourceLocation
  filePath : String
deriving DecidableEq, Repr

/-- `StructMember` from src/types.ts. -/
structure StructMember where
  name : String
  typeName : String
deriving DecidableEq, Repr

/-- `StructInfo` from src/types.ts. -/
structure StructInfo where
  name : String
  members : List StructMember
  fullSource : String
  location : SourceLocation
  filePath : String
  contractName : Option String
deriving DecidableEq, Repr

/-- `EnumInfo` from src/types.ts. -/
structure EnumInfo where
  name : String
  members : List String
  fullSource : String
  location : SourceLocation
  filePath : String
  contractName : Option String
deriving DecidableEq, Repr

/-- `StateVariableInfo` from src/types.ts. -/
structure StateVariableInfo where
  name : String
  typeName : String
  visibility : String
  fullSource : String
  location : SourceLocation
  filePath : String
  contractName : String
deriving DecidableEq, Repr

/-- `ContractInfo` from src/types.ts.  `baseContracts` is the list of declared
base-contract names (present on the parsed contract and read by the
inheritance resolver). -/
structure ContractInfo where
  name : String
  kind : String
  functions : List FunctionInfo
  structs : List StructInfo
  enums : List EnumInfo
  stateVariables : List StateVariableInfo
  baseContracts : List String
  location : SourceLocation
  filePath : String
deriving DecidableEq, Repr

/-- `ImportInfo` from src/types.ts. -/
structure ImportInfo where
  path : String
  absolutePath : Option String
  symbols : List String
deriving DecidableEq, Repr

/-- `ParsedFile` from src/types.ts. -/
structure ParsedFile where
  filePath : String
  contracts : List ContractInfo
  imports : List ImportInfo
  pragmas : List String
deriving DecidableEq, Repr

/-- The resolved definition carried by a `TypeReference`
(`StructInfo | EnumInfo` in src/types.ts). -/
inductive TypeDef where
  | struct (s : StructInfo)
  | enum (e : EnumInfo)
deriving DecidableEq, Repr

/-- `TypeReference` from src/types.ts. -/
structure TypeReference where
  name : String
  kind : String
  definition : Option TypeDef
deriving DecidableEq, Repr

/-- `FunctionCallInfo` from src/types.ts. -/
structure FunctionCallInfo where
  name : String
  expression : String
  arguments : List String
  location : SourceLocation
  resolvedFunction : Option FunctionInfo
deriving DecidableEq, Repr

/-- `ImplementationInfo` from src/types.ts. -/
structure ImplementationInfo where
  contractName : String
  contractKind : String
  functionInfo : FunctionInfo
  filePath : String
  isInherited : Bool
  inheritanceChain : List String
deriving DecidableEq, Repr

/-- The workspace index: `Map<string, ParsedFile>` in the sources, embedded as
an insertion-ordered association list from file path to parsed file. -/
abbrev Workspace : Type := List (String × ParsedFile)

/-- Insertion-ordered set `add` for `Set<string>`: append when absent. -/
def setAdd (l : List String) (x : String) : List String :=
  if l.contains x then l else l ++ [x]

/-- A JavaScript word character (`\w` = `[A-Za-z0-9_]`). -/
def isWordChar (c : Char) : Bool :=
  c.isAlpha || c.isDigit || c = '_'

/-- Maximal runs of word characters of a character list (auxiliary scanner;
`acc` holds the current run, reversed). -/
def wordRunsAux : List Char → List Char → List (List Char)
  | [], acc => if acc.isEmpty then [] else [acc.reverse]
  | c :: cs, acc =>
    if isWordChar c then
      wordRunsAux cs (c :: acc)
    else if acc.isEmpty then
      wordRunsAux cs []
    else
      acc.reverse :: wordRunsAux cs []

/-- The successive matches of the identifier pattern
`\b([a-zA-Z_][a-zA-Z0-9_]*)\b` over a string (the scan loop of
`StateVariableResolver.extractStateVariableReferences`): exactly the maximal
word-character runs that begin with a letter or an underscore. -/
def identifiersOf (s : String) : List String :=
  (wordRunsAux s.toList []).filterMap fun run =>
    match run with
    | [] => none
    | c :: _ => if c.isAlpha || c = '_' then some (String.mk run) else none

/-- `StateVariableResolver.extractStateVariableReferences`: walk every
identifier occurrence of the function's full source and collect (into an
insertion-ordered set) the ones that name a state variable of the enclosing
contract. -/
def extractStateVariableReferences (functionInfo : FunctionInfo)
    (currentContract : ContractInfo) : List String :=
  let contractStateVars := currentContract.stateVariables.map (·.name)
  (identifiersOf functionInfo.fullSource).foldl
    (fun acc ident =>
      if contractStateVars.contains ident then setAdd acc ident else acc) []

/-- JavaScript `s.split(sep)` for a one-character separator, over a character
list: always returns a non-empty list of segments, none containing the
separator. -/
def splitCharsOn (sep : Char) : List Char → List (List Char)
  | [] => [[]]
  | c :: cs =>
    let rest := splitCharsOn sep cs
    if c = sep then
      [] :: rest
    else
      match rest with
      | [] => [[c]]
      | r :: rs => (c :: r) :: rs

/-- JavaScript `s.split(sep)` for a one-character separator. -/
def jsSplit (s : String) (sep : Char) : List String :=
  (splitCharsOn sep s.toList).map String.mk

/-- `parts[parts.length - 1]` after `s.split('.')`: the unqualified
(rightmost) name. -/
def localNameOf (s : String) : String :=
  (jsSplit s '.').getLastD ""

/-- `parts.length > 1 ? parts[0] : null` after `s.split('.')`: the contract
qualifier of a qualified name. -/
def qualifierOf (s : String) : Option String :=
  let parts := jsSplit s '.'
  if parts.length > 1 then some (parts.headD "") else none

/-- JavaScript `toLowerCase` (the sources only apply it to ASCII names). -/
def toLowerStr (s : String) : String :=
  String.mk (s.toList.map Char.toLower)

/-- A JavaScript whitespace character as matched by `\s` (ASCII part; the
sources only scan source text). -/
def isJsSpace (c : Char) : Bool :=
  c = ' ' || c = '\t' || c = '\n' || c = '\r' || c = '\x0b' || c = '\x0c'

/-- Remove trailing `\s` characters from a character list. -/
def trimTrailingWs (cs : List Char) : List Char :=
  (cs.reverse.dropWhile isJsSpace).reverse

/-- Remove leading and trailing `\s` characters (JavaScript `trim()`). -/
def jsTrim (s : String) : String :=
  String.mk (trimTrailingWs (s.toList.dropWhile isJsSpace))

/-- `/^I[A-Z]/.test(name)`: the interface-naming convention (capital `I`
followed by another capital). -/
def isInterfaceName (s : String) : Bool :=
  match s.toList with
  | 'I' :: c :: _ => c.isUpper
  | _ => false

/-- `StateVariableResolver.resolveStateVariable`: search the named contract
first (when a name is given), then every contract of every file. -/
def resolveStateVariable (name : String) (currentContractName : Option String)
    (workspaceFiles : Workspace) : Option StateVariableInfo :=
  let inContract : Option StateVariableInfo :=
    match currentContractName with
    | none => none
    | some cn =>
      workspaceFiles.findSome? fun (entry : String × ParsedFile) =>
        entry.2.contracts.findSome? fun contract =>
          if contract.name = cn then
            contract.stateVariables.find? (fun sv => sv.name = name)
          else
            none
  match inContract with
  | some sv => some sv
  | none =>
    workspaceFiles.findSome? fun (entry : String × ParsedFile) =>
      entry.2.contracts.findSome? fun contract =>
        contract.stateVariables.find? (fun sv => sv.name = name)

/-- `TypeResolver.ELEMENTARY_TYPES`: elementary type names to skip. -/
def ELEMENTARY_TYPES : List String :=
  ["address", "bool", "string", "bytes", "uint", "int",
   "uint8", "uint16", "uint24", "uint32", "uint40", "uint48", "uint56", "uint64",
   "uint72", "uint80", "uint88", "uint96", "uint104", "uint112", "uint120", "uint128",
   "uint136", "uint144", "uint152", "uint160", "uint168", "uint176", "uint184", "uint192",
   "uint200", "uint208", "uint216", "uint224", "uint232", "uint240", "uint248", "uint256",
   "int8", "int16", "int24", "int32", "int40", "int48", "int56", "int64",
   "int72", "int80", "int88", "int96", "int104", "int112", "int120", "int128",
   "int136", "int144", "int152", "int160", "int168", "int176", "int184", "int192",
   "int200", "int208", "int216", "int224", "int232", "int240", "int248", "int256",
   "bytes1", "bytes2", "bytes3", "bytes4", "bytes5", "bytes6", "bytes7", "bytes8",
   "bytes9", "bytes10", "bytes11", "bytes12", "bytes13", "bytes14", "bytes15", "bytes16",
   "bytes17", "bytes18", "bytes19", "bytes20", "bytes21", "bytes22", "bytes23", "bytes24",
   "bytes25", "bytes26", "bytes27", "bytes28", "bytes29", "bytes30", "bytes31", "bytes32",
   "function", "unknown", "void", "var"]

/-- `TypeResolver.SKIP_NAMES`: common keywords and built-ins to skip. -/
def SKIP_NAMES : List String :=
  ["require", "assert", "revert", "keccak256", "sha256", "sha3",
   "ripemd160", "ecrecover", "addmod", "mulmod", "selfdestruct",
   "blockhash", "gasleft", "Error", "Panic", "abi", "block",
   "msg", "tx", "this", "super", "type", "true", "false",
   "if", "else", "for", "while", "do", "return", "emit", "new", "delete",
   "memory", "storage", "calldata", "public", "private", "internal", "external",
   "pure", "view", "payable", "constant", "immutable", "virtual", "override"]

/-- The characters before the first `=>` of a character list, together with the
characters after it (the lazy group `(.+?)\s*=>` of the mapping pattern picks
the first `=>`). -/
def splitFirstArrow : List Char → Option (List Char × List Char)
  | '=' :: '>' :: rest => some ([], rest)
  | c :: rest =>
    match splitFirstArrow rest with
    | some (a, b) => some (c :: a, b)
    | none => none
  | [] => none

/-- The characters before the last `)` of a character list (the greedy
`(.+)\s*\)` tail of the mapping pattern reaches the last `)`). -/
def beforeLastCloseParen (cs : List Char) : Option (List Char) :=
  match cs.reverse.dropWhile (fun c => c != ')') with
  | ')' :: rest => some rest.reverse
  | _ => none

/-- Attempt the mapping pattern `mapping\s*\(\s*(.+?)\s*=>\s*(.+)\s*\)` at the
head of a character list, returning the two captured groups.  The lazy first
group stops at the first `=>` (trailing whitespace stripped by the `\s*`), the
greedy second group extends to the last `)` (trailing whitespace stripped);
both groups must be non-empty.  The sources only apply this to single-line
type-name strings. -/
def tryMappingAt (cs : List Char) : Option (String × String) :=
  if cs.take 7 = "mapping".toList then
    match (cs.drop 7).dropWhile isJsSpace with
    | '(' :: r2 =>
      match splitFirstArrow (r2.dropWhile isJsSpace) with
      | some (g1raw, rest) =>
        let g1 := trimTrailingWs g1raw
        if g1.isEmpty then none
        else
          match beforeLastCloseParen rest with
          | some g2raw =>
            let g2 := trimTrailingWs g2raw
            if g2.isEmpty then none
            else some (String.mk g1, String.mk g2)
          | none => none
      | none => none
    | _ => none
  else none

/-- `typeName.match(/mapping\s*\(\s*(.+?)\s*=>\s*(.+)\s*\)/)`: try the mapping
pattern at each successive start position, returning the first match's two
groups. -/
def mappingMatch : List Char → Option (String × String)
  | [] => none
  | c :: cs =>
    match tryMappingAt (c :: cs) with
    | some r => some r
    | none => mappingMatch cs

/-- `typeName.match(/^(.+?)\s*\[.*\]$/)`: the anchored array pattern.  A match
requires a `[` and a final `]`; the lazy group is everything before the first
`[` (trailing whitespace stripped) and must be non-empty. -/
def arrayMatch (s : String) : Option String :=
  let cs := s.toList
  if cs.getLast? = some ']' then
    let before := cs.takeWhile (fun c => c != '[')
    if before.length = cs.length then none
    else
      let g := trimTrailingWs before
      if g.isEmpty then none else some (String.mk g)
  else none

/-- `typeName.split('.').pop() || typeName` (the `||` falls back to the whole
name when the last segment is the empty string). -/
def popOrSelf (typeName : String) : String :=
  let p := (jsSplit typeName '.').getLastD ""
  if p = "" then typeName else p

/-- `TypeResolver.extractFromTypeName`: unwrap `mapping(K => V)` and `T[...]`
recursively, then add the name to the set when it survives the elementary-type
and keyword filters and starts with an upper-case letter.  The structurally
decreasing `fuel` models the unbounded JavaScript recursion; every recursive
call is on a strictly shorter string, so `typeName.length + 1` fuel is always
enough (see `extractFromTypeNameTop`). -/
def extractFromTypeName : Nat → String → List String → List String
  | 0, _, types => types
  | fuel + 1, typeName, types =>
    match mappingMatch typeName.toList with
    | some (k, v) =>
      extractFromTypeName fuel (jsTrim v) (extractFromTypeName fuel (jsTrim k) types)
    | none =>
      match arrayMatch typeName with
      | some base => extractFromTypeName fuel (jsTrim base) types
      | none =>
        let cleanName := popOrSelf typeName
        if ELEMENTARY_TYPES.contains (toLowerStr cleanName) then types
        else if SKIP_NAMES.contains cleanName then types
        else
          match cleanName.toList with
          | c :: _ => if c.isUpper then setAdd types typeName else types
          | [] => types

/-- `extractFromTypeName` with enough fuel for its input. -/
def extractFromTypeNameTop (typeName : String) (types : List String) : List String :=
  extractFromTypeName (typeName.length + 1) typeName types

/-- `TypeResolver.addTypeIfValid`: drop empty names, elementary types,
keywords, one-character names and interface-convention names; otherwise add to
the set. -/
def addTypeIfValid (types : List String) (name : String) : List String :=
  if name = "" then types
  else if ELEMENTARY_TYPES.contains (toLowerStr name) then types
  else if SKIP_NAMES.contains name then types
  else if name.length < 2 then types
  else if isInterfaceName name then types
  else setAdd types name

/-- Whether an optional preceding character is a word character (used for the
`\b` boundary and the lookbehind of the source regexes). -/
def isWordOpt : Option Char → Bool
  | some c => isWordChar c
  | none => false

/-- The maximal word-character run at the head of a character list, when it
starts with an upper-case letter (the `[A-Z][a-zA-Z0-9_]*` group shared by the
body-scan patterns); returns the run and the remaining characters. -/
def upperRun (cs : List Char) : Option (List Char × List Char) :=
  match cs with
  | c :: _ =>
    if c.isUpper then
      let run := cs.takeWhile isWordChar
      some (run, cs.drop run.length)
    else
      none
  | [] => none

/-- Attempt pattern 1a
`\b([A-Z][a-zA-Z0-9_]*)\s+(?:memory|storage|calldata)\s+\w+` at the current
position; returns the captured group and the match length. -/
def matchDeclWithLoc (prev : Option Char) (cs : List Char) : Option (String × Nat) :=
  if isWordOpt prev then none
  else
    match upperRun cs with
    | none => none
    | some (run, r1) =>
      let ws1 := r1.takeWhile isJsSpace
      if ws1.isEmpty then none
      else
        let r2 := r1.drop ws1.length
        let kwLen : Option Nat :=
          if r2.take 6 = "memory".toList then some 6
          else if r2.take 7 = "storage".toList then some 7
          else if r2.take 8 = "calldata".toList then some 8
          else none
        match kwLen with
        | none => none
        | some k =>
          let r3 := r2.drop k
          let ws2 := r3.takeWhile isJsSpace
          if ws2.isEmpty then none
          else
            let r4 := r3.drop ws2.length
            let w := r4.takeWhile isWordChar
            if w.isEmpty then none
            else
              some (String.mk run,
                run.length + ws1.length + k + ws2.length + w.length)

/-- Attempt pattern 1b `\b([A-Z][a-zA-Z0-9_]*)\s+\w+\s*[=;,)]` at the current
position. -/
def matchDeclSimple (prev : Option Char) (cs : List Char) : Option (String × Nat) :=
  if isWordOpt prev then none
  else
    match upperRun cs with
    | none => none
    | some (run, r1) =>
      let ws1 := r1.takeWhile isJsSpace
      if ws1.isEmpty then none
      else
        let r2 := r1.drop ws1.length
        let w := r2.takeWhile isWordChar
        if w.isEmpty then none
        else
          let r3 := r2.drop w.length
          let ws2 := r3.takeWhile isJsSpace
          match r3.drop ws2.length with
          | c :: _ =>
            if c = '=' || c = ';' || c = ',' || c = ')' then
              some (String.mk run,
                run.length + ws1.length + w.length + ws2.length + 1)
            else none
          | [] => none

/-- Attempt pattern 2 `\b([A-Z][a-zA-Z0-9_]*)\s*\(` (struct instantiation) at
the current position. -/
def matchInstantiation (prev : Option Char) (cs : List Char) : Option (String × Nat) :=
  if isWordOpt prev then none
  else
    match upperRun cs with
    | none => none
    | some (run, r1) =>
      let ws := r1.takeWhile isJsSpace
      match r1.drop ws.length with
      | '(' :: _ => some (String.mk run, run.length + ws.length + 1)
      | _ => none

/-- A character of the class `[A-Z0-9_]` (the second group of the enum-access
pattern). -/
def isUpperDigitUnderscore (c : Char) : Bool :=
  c.isUpper || c.isDigit || c = '_'

/-- Attempt pattern 3 `\b([A-Z][a-zA-Z0-9_]*)\.([A-Z][A-Z0-9_]*)\b` (enum
member access) at the current position. -/
def matchEnumAccess (prev : Option Char) (cs : List Char) : Option (String × Nat) :=
  if isWordOpt prev then none
  else
    match upperRun cs with
    | none => none
    | some (run, r1) =>
      match r1 with
      | '.' :: r2 =>
        match r2 with
        | c :: _ =>
          if c.isUpper then
            let run2 := r2.takeWhile isUpperDigitUnderscore
            match r2.drop run2.length with
            | d :: _ =>
              if isWordChar d then none
              else some (String.mk run, run.length + 1 + run2.length)
            | [] => some (String.mk run, run.length + 1 + run2.length)
          else none
        | [] => none
      | _ => none

/-- Attempt pattern 4
`==\s*([A-Z][a-zA-Z0-9_]*)\.|\b([A-Z][a-zA-Z0-9_]*)\.\w+\s*[=!<>]` (type
comparison) at the current position; the first alternative is tried first, as
in the regex engine. -/
def matchTypeCompare (prev : Option Char) (cs : List Char) : Option (String × Nat) :=
  match cs with
  | '=' :: '=' :: r1 =>
    let ws := r1.takeWhile isJsSpace
    let r2 := r1.drop ws.length
    (match upperRun r2 with
     | some (run, r3) =>
       match r3 with
       | '.' :: _ => some (String.mk run, 2 + ws.length + run.length + 1)
       | _ => matchTypeCompareAlt prev cs
     | none => matchTypeCompareAlt prev cs)
  | _ => matchTypeCompareAlt prev cs
where
  /-- The second alternative `\b([A-Z][a-zA-Z0-9_]*)\.\w+\s*[=!<>]`. -/
  matchTypeCompareAlt (prev : Option Char) (cs : List Char) : Option (String × Nat) :=
    if isWordOpt prev then none
    else
      match upperRun cs with
      | none => none
      | some (run, r1) =>
        match r1 with
        | '.' :: r2 =>
          let w := r2.takeWhile isWordChar
          if w.isEmpty then none
          else
            let r3 := r2.drop w.length
            let ws := r3.takeWhile isJsSpace
            match r3.drop ws.length with
            | c :: _ =>
              if c = '=' || c = '!' || c = '<' || c = '>' then
                some (String.mk run, run.length + 1 + w.length + ws.length + 1)
              else none
            | [] => none
        | _ => none

/-- Attempt pattern 5 `\b([A-Z][a-zA-Z0-9_]*)\b` (any capitalized identifier)
at the current position. -/
def matchCapitalized (prev : Option Char) (cs : List Char) : Option (String × Nat) :=
  if isWordOpt prev then none
  else
    match upperRun cs with
    | none => none
    | some (run, _) => some (String.mk run, run.length)

/-- Drive a position-wise matcher over a character list exactly as a
`pattern.exec` loop with the `g`-flag: successive non-overlapping matches,
left to right, the scan resuming after each match.  `prev` is the character
before the current position (for boundary checks) and the structurally
decreasing `fuel` is at least the list length at the top call. -/
def scanWith (matchAt : Option Char → List Char → Option (String × Nat)) :
    Nat → Option Char → List Char → List String
  | 0, _, _ => []
  | _, _, [] => []
  | fuel + 1, prev, c :: cs =>
    match matchAt prev (c :: cs) with
    | some (cap, n) =>
      let consumed := n.max 1
      cap ::
        scanWith matchAt fuel (((c :: cs).take consumed).getLast?)
          ((c :: cs).drop consumed)
    | none => scanWith matchAt fuel (some c) cs

/-- All captures of a body-scan pattern over a source string. -/
def allCaptures (matchAt : Option Char → List Char → Option (String × Nat))
    (s : String) : List String :=
  scanWith matchAt (s.toList.length + 1) none s.toList

/-- Whether a name contains a lower-case letter
(`name === name.toUpperCase()` fails exactly when it does, for ASCII). -/
def hasLowerChar (s : String) : Bool :=
  s.toList.any (fun c => c.isLower)

/-- `name.startsWith('I')`. -/
def startsWithI (s : String) : Bool :=
  s.toList.head? = some 'I'

/-- `TypeResolver.extractTypesFromBody`: run the five body-scan patterns over
the function source in order, feeding every capture through `addTypeIfValid`
(pattern 5 first discards all-caps names that do not start with `I`). -/
def extractTypesFromBody (sourceCode : String) (types : List String) : List String :=
  let t1 := (allCaptures matchDeclWithLoc sourceCode).foldl addTypeIfValid types
  let t2 := (allCaptures matchDeclSimple sourceCode).foldl addTypeIfValid t1
  let t3 := (allCaptures matchInstantiation sourceCode).foldl addTypeIfValid t2
  let t4 := (allCaptures matchEnumAccess sourceCode).foldl addTypeIfValid t3
  let t5 := (allCaptures matchTypeCompare sourceCode).foldl addTypeIfValid t4
  (allCaptures matchCapitalized sourceCode).foldl
    (fun ts name =>
      if !hasLowerChar name && !startsWithI name then ts
      else addTypeIfValid ts name) t5

/-- The candidate set of `TypeResolver.extractAllTypeNames` after steps 1 and
2 (the parameter and return-parameter declared types), before the body scan. -/
def signatureTypeNames (functionInfo : FunctionInfo) : List String :=
  let t1 := functionInfo.parameters.foldl
    (fun ts p => extractFromTypeNameTop p.typeName ts) []
  functionInfo.returnParameters.foldl
    (fun ts p => extractFromTypeNameTop p.typeName ts) t1

/-- `TypeResolver.extractAllTypeNames`: candidates from the parameters, the
return parameters, then the body scan. -/
def extractAllTypeNames (functionInfo : FunctionInfo) : List String :=
  extractTypesFromBody functionInfo.fullSource (signatureTypeNames functionInfo)

/-- The `TypeReference` record `findTypeInFile` builds: the name qualified by
the contract qualifier when one was given, the kind of the found definition,
and the definition itself. -/
def typeRefOf (contractName : Option String) (typeName : String)
    (d : TypeDef) : TypeReference :=
  { name := match contractName with
            | some cn => cn ++ "." ++ typeName
            | none => typeName,
    kind := match d with
            | .struct _ => "struct"
            | .enum _ => "enum",
    definition := some d }

/-- `TypeResolver.findTypeInFile`: walk the file's contracts (restricted to
the qualifying contract when a qualifier is given), searching each contract's
structs and then its enums for the name. -/
def findTypeInFile (typeName : String) (contractName : Option String)
    (file : ParsedFile) : Option TypeReference :=
  file.contracts.findSome? fun contract =>
    if (match contractName with
        | some cn => contract.name != cn
        | none => false) then
      none
    else
      match contract.structs.find? (fun s => s.name = typeName) with
      | some s => some (typeRefOf contractName typeName (TypeDef.struct s))
      | none =>
        match contract.enums.find? (fun e => e.name = typeName) with
        | some e => some (typeRefOf contractName typeName (TypeDef.enum e))
        | none => none

/-- `TypeResolver.resolveType`: split off a contract qualifier, search the
current file, then every other workspace file in insertion order (the current
file's path is skipped on the second pass). -/
def resolveType (typeName : String) (currentFile : ParsedFile)
    (workspaceFiles : Workspace) : Option TypeReference :=
  let localName := localNameOf typeName
  let contractName := qualifierOf typeName
  match findTypeInFile localName contractName currentFile with
  | some r => some r
  | none =>
    workspaceFiles.findSome? fun (entry : String × ParsedFile) =>
      if entry.1 = currentFile.filePath then none
      else findTypeInFile localName contractName entry.2

/-- `TypeResolver.resolveTypes`: de-duplicate candidates by unqualified name
and keep those that resolve to a definition. -/
def resolveTypes (functionInfo : FunctionInfo) (currentFile : ParsedFile)
    (workspaceFiles : Workspace) : List TypeReference :=
  let typeNames := extractAllTypeNames functionInfo
  (typeNames.foldl
    (fun (acc : List TypeReference × List String) typeName =>
      let normalizedName := popOrSelf typeName
      if acc.2.contains normalizedName then acc
      else
        let seen := acc.2 ++ [normalizedName]
        match resolveType typeName currentFile workspaceFiles with
        | some reference =>
          if reference.definition.isSome then (acc.1 ++ [reference], seen)
          else (acc.1, seen)
        | none => (acc.1, seen))
    ([], [])).1

/-- `TypeResolver.resolveSingleType`: the same per-name resolution, searching
every workspace file in insertion order with no current file. -/
def resolveSingleType (typeName : String) (workspaceFiles : Workspace) :
    Option TypeReference :=
  let localName := localNameOf typeName
  let contractName := qualifierOf typeName
  workspaceFiles.findSome? fun (entry : String × ParsedFile) =>
    findTypeInFile localName contractName entry.2

/-- `TypeResolver.typeExists`. -/
def typeExists (typeName : String) (workspaceFiles : Workspace) : Bool :=
  (resolveSingleType typeName workspaceFiles).isSome

/-- `CallGraphBuilder.BUILTINS`: built-in functions and keywords to skip. -/
def BUILTINS : List String :=
  ["require", "assert", "revert", "keccak256", "sha256", "sha3",
   "ripemd160", "ecrecover", "addmod", "mulmod", "selfdestruct",
   "blockhash", "gasleft", "type", "abi",
   "push", "pop", "transfer", "send", "call",
   "delegatecall", "staticcall", "encode", "encodePacked",
   "encodeWithSelector", "encodeWithSignature", "decode",
   "length", "balance", "code", "codehash",
   "safeApprove", "safeTransfer", "safeTransferFrom", "approve",
   "transferFrom", "allowance", "balanceOf", "totalSupply",
   "mint", "burn", "deposit", "withdraw", "borrow", "repay",
   "supply", "claim", "stake", "unstake"]

/-- `CallGraphBuilder.TYPE_CASTS`: elementary type names used for casting. -/
def TYPE_CASTS : List String :=
  ["address", "bool", "string", "bytes",
   "uint", "int", "uint8", "uint16", "uint24", "uint32", "uint40", "uint48",
   "uint56", "uint64", "uint72", "uint80", "uint88", "uint96", "uint104",
   "uint112", "uint120", "uint128", "uint136", "uint144", "uint152", "uint160",
   "uint168", "uint176", "uint184", "uint192", "uint200", "uint208", "uint216",
   "uint224", "uint232", "uint240", "uint248", "uint256",
   "int8", "int16", "int24", "int32", "int40", "int48", "int56", "int64",
   "int72", "int80", "int88", "int96", "int104", "int112", "int120", "int128",
   "int136", "int144", "int152", "int160", "int168", "int176", "int184", "int192",
   "int200", "int208", "int216", "int224", "int232", "int240", "int248", "int256",
   "bytes1", "bytes2", "bytes3", "bytes4", "bytes5", "bytes6", "bytes7", "bytes8",
   "bytes9", "bytes10", "bytes11", "bytes12", "bytes13", "bytes14", "bytes15",
   "bytes16", "bytes17", "bytes18", "bytes19", "bytes20", "bytes21", "bytes22",
   "bytes23", "bytes24", "bytes25", "bytes26", "bytes27", "bytes28", "bytes29",
   "bytes30", "bytes31", "bytes32"]

/-- `CallGraphBuilder.KEYWORDS`: control-flow keywords. -/
def KEYWORDS : List String :=
  ["if", "else", "for", "while", "do", "return", "emit", "new", "delete",
   "try", "catch", "break", "continue"]

/-- JavaScript `haystack.includes(needle)`. -/
def jsIncludes (haystack needle : String) : Bool :=
  go haystack.toList needle.toList
where
  go : List Char → List Char → Bool
    | cs, sub =>
      if cs.take sub.length = sub then true
      else
        match cs with
        | [] => false
        | _ :: t => go t sub

/-- Whether a position-wise test succeeds at some suffix of the character
list (a regex `test` with no anchors tries every start position). -/
def anySuffix (p : List Char → Bool) : List Char → Bool
  | [] => p []
  | c :: cs => p (c :: cs) || anySuffix p cs

/-- The test `name\s*\([^)]+\)` at the current position (the type-cast check
of `CallGraphBuilder.isInterfaceCall`). -/
def castParenAt (nameL : List Char) (cs : List Char) : Bool :=
  if cs.take nameL.length = nameL then
    let r := cs.drop nameL.length
    let ws := r.takeWhile isJsSpace
    match r.drop ws.length with
    | '(' :: r2 =>
      let inner := r2.takeWhile (fun c => c != ')')
      !inner.isEmpty && (r2.drop inner.length).head? = some ')'
    | _ => false
  else false

/-- `CallGraphBuilder.isInterfaceCall`: an interface-convention name used as a
type cast (`IERC20(addr)`) somewhere on the line. -/
def isInterfaceCall (name : String) (line : String) : Bool :=
  if isInterfaceName name then
    anySuffix (castParenAt name.toList) line.toList
  else false

/-- The test `I[A-Z][a-zA-Z0-9_]*\([^)]*\)\.name\s*\(` at the current
position (a method call on an interface cast). -/
def interfaceMethodAt (nameL : List Char) (cs : List Char) : Bool :=
  match cs with
  | 'I' :: c2 :: _ =>
    if c2.isUpper then
      let run := cs.takeWhile isWordChar
      match cs.drop run.length with
      | '(' :: r2 =>
        let inner := r2.takeWhile (fun c => c != ')')
        match r2.drop inner.length with
        | ')' :: '.' :: r3 =>
          if r3.take nameL.length = nameL then
            let r4 := r3.drop nameL.length
            let ws := r4.takeWhile isJsSpace
            (r4.drop ws.length).head? = some '('
          else false
        | _ => false
      | _ => false
    else false
  | _ => false

/-- The test `\w+\.name\s*\(` (with `firstOk = isWordChar`) or
`[a-z_][a-zA-Z0-9_]*\.name\s*\(` (with `firstOk` lower-case/underscore) at the
current position. -/
def dotNameCallAt (firstOk : Char → Bool) (nameL : List Char) (cs : List Char) : Bool :=
  match cs with
  | c :: _ =>
    if firstOk c then
      let run := cs.takeWhile isWordChar
      match cs.drop run.length with
      | '.' :: r2 =>
        if r2.take nameL.length = nameL then
          let r3 := r2.drop nameL.length
          let ws := r3.takeWhile isJsSpace
          (r3.drop ws.length).head? = some '('
        else false
      | _ => false
    else false
  | [] => false

/-- A lower-case letter or underscore (the first character class of the
call patterns). -/
def isLowerUnderscore (c : Char) : Bool :=
  c.isLower || c = '_'

/-- `CallGraphBuilder.shouldSkipCall`. -/
def shouldSkipCall (name : String) (_expression : String) (line : String) : Bool :=
  if BUILTINS.contains name then true
  else if KEYWORDS.contains name then true
  else if TYPE_CASTS.contains name then true
  else if isInterfaceCall name line then true
  else if anySuffix (interfaceMethodAt name.toList) line.toList then true
  else if anySuffix (dotNameCallAt isWordChar name.toList) line.toList
          && !jsIncludes line ("this." ++ name) then
    anySuffix (dotNameCallAt isLowerUnderscore name.toList) line.toList
  else false

/-- Attempt the direct-call pattern `(?<![.\w])([a-z_][a-zA-Z0-9_]*)\s*\(` at
the current position. -/
def matchDirectCall (prev : Option Char) (cs : List Char) : Option (String × Nat) :=
  if prev = some '.' || isWordOpt prev then none
  else
    match cs with
    | c :: _ =>
      if isLowerUnderscore c then
        let run := cs.takeWhile isWordChar
        let r1 := cs.drop run.length
        let ws := r1.takeWhile isJsSpace
        match r1.drop ws.length with
        | '(' :: _ => some (String.mk run, run.length + ws.length + 1)
        | _ => none
      else none
    | [] => none

/-- Attempt the `this.`-call pattern `this\.([a-z_][a-zA-Z0-9_]*)\s*\(` at the
current position. -/
def matchThisCall (_prev : Option Char) (cs : List Char) : Option (String × Nat) :=
  if cs.take 5 = "this.".toList then
    match cs.drop 5 with
    | c :: _ =>
      if isLowerUnderscore c then
        let r := cs.drop 5
        let run := r.takeWhile isWordChar
        let r1 := r.drop run.length
        let ws := r1.takeWhile isJsSpace
        match r1.drop ws.length with
        | '(' :: _ => some (String.mk run, 5 + run.length + ws.length + 1)
        | _ => none
      else none
    | [] => none
  else none

/-- Attempt the underscore-call pattern `(?<![.\w])(_[a-zA-Z0-9_]+)\s*\(` at
the current position. -/
def matchUnderscoreCall (prev : Option Char) (cs : List Char) : Option (String × Nat) :=
  if prev = some '.' || isWordOpt prev then none
  else
    match cs with
    | '_' :: _ =>
      let run := cs.takeWhile isWordChar
      if run.length < 2 then none
      else
        let r1 := cs.drop run.length
        let ws := r1.takeWhile isJsSpace
        match r1.drop ws.length with
        | '(' :: _ => some (String.mk run, run.length + ws.length + 1)
        | _ => none
    | _ => none

/-- Drive a position-wise matcher as `scanWith` does, also reporting each
match's start index and length (for call-site locations). -/
def scanWithPos (matchAt : Option Char → List Char → Option (String × Nat)) :
    Nat → Option Char → Nat → List Char → List (String × Nat × Nat)
  | 0, _, _, _ => []
  | _, _, _, [] => []
  | fuel + 1, prev, pos, c :: cs =>
    match matchAt prev (c :: cs) with
    | some (cap, n) =>
      let consumed := n.max 1
      (cap, pos, n) ::
        scanWithPos matchAt fuel (((c :: cs).take consumed).getLast?)
          (pos + consumed) ((c :: cs).drop consumed)
    | none => scanWithPos matchAt fuel (some c) (pos + 1) cs

/-- One `exec` loop of `CallGraphBuilder.extractFunctionCalls`: push every
match of one pattern on one line, respecting the per-(line, expression)
de-duplication set and the skip filter. -/
def applyCallPattern (pat : Option Char → List Char → Option (String × Nat))
    (exprOf : String → String) (line : String) (lineNum : Nat)
    (acc : List FunctionCallInfo × List String) :
    List FunctionCallInfo × List String :=
  (scanWithPos pat (line.toList.length + 1) none 0 line.toList).foldl
    (fun (acc2 : List FunctionCallInfo × List String) m =>
      let expression := exprOf m.1
      let callKey := toString lineNum ++ ":" ++ expression
      if acc2.2.contains callKey then acc2
      else if shouldSkipCall m.1 expression line then acc2
      else
        (acc2.1 ++
          [{ name := m.1, expression := expression, arguments := [],
             location := ⟨lineNum, m.2.1, lineNum, m.2.1 + m.2.2⟩,
             resolvedFunction := none }],
         acc2.2 ++ [callKey]))
    acc

/-- `CallGraphBuilder.extractFunctionCalls`: split the function source into
lines and run the three call patterns on each line. -/
def extractFunctionCalls (functionInfo : FunctionInfo) : List FunctionCallInfo :=
  let lines := jsSplit functionInfo.fullSource '\n'
  ((lines.foldl
    (fun (acc : (List FunctionCallInfo × List String) × Nat) line =>
      let lineNum := functionInfo.location.startLine + acc.2
      let a1 := applyCallPattern matchDirectCall id line lineNum acc.1
      let a2 := applyCallPattern matchThisCall (fun n => "this." ++ n) line lineNum a1
      let a3 := applyCallPattern matchUnderscoreCall id line lineNum a2
      (a3, acc.2 + 1))
    (([], []), 0)).1).1

/-- `CallGraphBuilder.findFunctionDefinition`: resolve by the unqualified name
of the call expression, current file's contracts first, then the other
workspace files in insertion order. -/
def findFunctionDefinition (_name : String) (expression : String)
    (currentFile : ParsedFile) (workspaceFiles : Workspace) : Option FunctionInfo :=
  let functionName := localNameOf expression
  match
    currentFile.contracts.findSome? fun contract =>
      contract.functions.find? (fun f => f.name = functionName)
  with
  | some f => some f
  | none =>
    workspaceFiles.findSome? fun (entry : String × ParsedFile) =>
      if entry.1 = currentFile.filePath then none
      else
        entry.2.contracts.findSome? fun contract =>
          contract.functions.find? (fun f => f.name = functionName)

/-- `CallGraphBuilder.resolveFunctionCall`. -/
def resolveFunctionCall (call : FunctionCallInfo) (currentFile : ParsedFile)
    (workspaceFiles : Workspace) : FunctionCallInfo :=
  { call with
    resolvedFunction :=
      findFunctionDefinition call.name call.expression currentFile workspaceFiles }

/-- `CallGraphBuilder.buildCallGraph`: drop the self-call, resolve each
extracted call, and keep only the ones with a resolved definition. -/
def buildCallGraph (functionInfo : FunctionInfo) (currentFile : ParsedFile)
    (workspaceFiles : Workspace) : List FunctionCallInfo :=
  (extractFunctionCalls functionInfo).foldl
    (fun acc call =>
      if call.name = functionInfo.name then acc
      else
        let resolved := resolveFunctionCall call currentFile workspaceFiles
        match resolved.resolvedFunction with
        | some _ => acc ++ [resolved]
        | none => acc)
    []

/-- `CallGraphBuilder.resolveSingleFunction`: take the unqualified part of the
requested name and return the first function of that name over all workspace
files in insertion order. -/
def resolveSingleFunction (functionName : String) (workspaceFiles : Workspace) :
    Option FunctionInfo :=
  let localName := localNameOf functionName
  workspaceFiles.findSome? fun (entry : String × ParsedFile) =>
    entry.2.contracts.findSome? fun contract =>
      contract.functions.find? (fun f => f.name = localName)

/-- `CallGraphBuilder.functionExists`. -/
def functionExists (functionName : String) (workspaceFiles : Workspace) : Bool :=
  (resolveSingleFunction functionName workspaceFiles).isSome

/-- `Map.get` over an association list: the value of the first entry with the
key. -/
def assocGet {β : Type} (m : List (String × β)) (k : String) : Option β :=
  (m.find? (fun e => e.1 = k)).map (·.2)

/-- `Map.set` over an association list: replace in place when the key exists
(JavaScript maps keep the original insertion position), append otherwise. -/
def assocSet {β : Type} (m : List (String × β)) (k : String) (v : β) :
    List (String × β) :=
  match m with
  | [] => [(k, v)]
  | e :: rest => if e.1 = k then (k, v) :: rest else e :: assocSet rest k v

/-- The state of an `InheritanceResolver` after `buildInheritanceGraph`. -/
structure InheritanceState where
  contractMap : List (String × ContractInfo)
  inheritedBy : List (String × List String)
  inheritanceChains : List (String × List String)
deriving Repr

/-- First pass of `InheritanceResolver.buildInheritanceGraph`: collect every
contract of every file into the name-keyed contract map (last write wins on a
name collision). -/
def buildContractMap (workspaceFiles : Workspace) : List (String × ContractInfo) :=
  workspaceFiles.foldl
    (fun m (entry : String × ParsedFile) =>
      entry.2.contracts.foldl (fun m c => assocSet m c.name c) m)
    []

/-- Second pass of `InheritanceResolver.buildInheritanceGraph`: for every
contract and every declared base, record the contract as an inheritor of the
base. -/
def buildInheritedBy (contractMap : List (String × ContractInfo)) :
    List (String × List String) :=
  contractMap.foldl
    (fun ib (e : String × ContractInfo) =>
      e.2.baseContracts.foldl
        (fun ib baseName =>
          assocSet ib baseName (setAdd ((assocGet ib baseName).getD []) e.1))
        ib)
    []

/-- `InheritanceResolver.computeInheritanceChain`: the contract itself, then
each declared base's chain (computed with a per-path copy of the visited set),
skipping names already in the accumulating chain.  The JavaScript recursion
adds one name to the per-path visited set at each level and stops on a
revisit or on a name missing from the map, so `contractMap.length + 1` fuel is
always enough. -/
def computeInheritanceChain (contractMap : List (String × ContractInfo)) :
    Nat → String → List String → List String
  | 0, _, _ => []
  | fuel + 1, contractName, visited =>
    if visited.contains contractName then []
    else
      let visited2 := visited ++ [contractName]
      let chain0 := [contractName]
      match assocGet contractMap contractName with
      | none => chain0
      | some contract =>
        contract.baseContracts.foldl
          (fun chain baseName =>
            (computeInheritanceChain contractMap fuel baseName visited2).foldl
              (fun chain n => if chain.contains n then chain else chain ++ [n])
              chain)
          chain0

/-- Third pass of `InheritanceResolver.buildInheritanceGraph`, plus the two
earlier passes, assembled from the contract map (each later pass reads only
the contract map). -/
def stateFromContractMap (contractMap : List (String × ContractInfo)) :
    InheritanceState :=
  { contractMap := contractMap,
    inheritedBy := buildInheritedBy contractMap,
    inheritanceChains :=
      contractMap.foldl
        (fun ch (e : String × ContractInfo) =>
          assocSet ch e.1
            (computeInheritanceChain contractMap (contractMap.length + 1) e.1 []))
        [] }

/-- `InheritanceResolver.buildInheritanceGraph`. -/
def buildInheritanceGraph (workspaceFiles : Workspace) : InheritanceState :=
  stateFromContractMap (buildContractMap workspaceFiles)

/-- The `collectInheritors` closure of
`InheritanceResolver.getImplementingContracts`: add each direct inheritor to
the result set, then recurse into it.  The JavaScript recursion has no visited
set and can overflow the stack on a cyclic graph; `fuel` bounds the recursion
depth, and on acyclic graphs any fuel beyond the longest inheritor chain
computes the JavaScript result. -/
def collectInheritors (inheritedBy : List (String × List String)) :
    Nat → String → List String → List String
  | 0, _, result => result
  | fuel + 1, name, result =>
    match assocGet inheritedBy name with
    | none => result
    | some inheritors =>
      inheritors.foldl
        (fun res inheritor =>
          collectInheritors inheritedBy fuel inheritor (setAdd res inheritor))
        result

/-- `InheritanceResolver.getImplementingContracts`. -/
def getImplementingContracts (st : InheritanceState) (fuel : Nat)
    (interfaceName : String) : List String :=
  collectInheritors st.inheritedBy fuel interfaceName []

/-- One chain link of `InheritanceResolver.findMethodInContract`: skip a name
missing from the map or naming an interface, and return an implementation
only when the link's function of the requested name has a non-empty body. -/
def methodLookupStep (st : InheritanceState)
    (contractName methodName : String) (chain : List String)
    (name : String) : Option ImplementationInfo :=
  match assocGet st.contractMap name with
  | none => none
  | some contract =>
    if contract.kind = "interface" then none
    else
      match contract.functions.find? (fun f => f.name = methodName) with
      | some func =>
        if func.body ≠ "" ∧ jsTrim func.body ≠ "" then
          some { contractName := name,
                 contractKind := contract.kind,
                 functionInfo := func,
                 filePath := contract.filePath,
                 isInherited := name != contractName,
                 inheritanceChain := chain }
        else none
      | none => none

/-- `InheritanceResolver.findMethodInContract`: walk the contract's linearized
chain and return the first non-interface link whose function of the requested
name has a non-empty body. -/
def findMethodInContract (st : InheritanceState)
    (contractName methodName : String) : Option ImplementationInfo :=
  let chain := (assocGet st.inheritanceChains contractName).getD [contractName]
  chain.findSome? (methodLookupStep st contractName methodName chain)

/-- `InheritanceResolver.findImplementations`: for every (transitively)
implementing contract that is not an interface, look the method up through
that contract's own chain. -/
def findImplementations (st : InheritanceState) (fuel : Nat)
    (interfaceName methodName : String) : List ImplementationInfo :=
  (getImplementingContracts st fuel interfaceName).foldl
    (fun impls contractName =>
      match assocGet st.contractMap contractName with
      | none => impls
      | some contract =>
        if contract.kind = "interface" then impls
        else
          match findMethodInContract st contractName methodName with
          | some impl => impls ++ [impl]
          | none => impls)
    []

mutual
/-- An opaque syntax-tree node as the Tree Walker sees it
(`@solidity-parser` AST): a `type` tag, an optional `loc` span, and the
remaining properties in insertion order.  Property values that are neither
nodes nor arrays are collapsed to `prim` (the walker never descends into
them). -/
inductive ASTNode where
  | mk (type : String) (loc : Option SourceLocation) (props : List NodeProp)

inductive NodeProp where
  | mk (key : String) (val : PropVal)

inductive PropVal where
  | node (n : ASTNode)
  | arr (elems : List PropVal)
  | prim
end

/-- The `type` tag of a node. -/
def ASTNode.type : ASTNode → String
  | .mk t _ _ => t

/-- The `loc` span of a node. -/
def ASTNode.loc : ASTNode → Option SourceLocation
  | .mk _ l _ => l

/-- The property list of a node. -/
def ASTNode.props : ASTNode → List NodeProp
  | .mk _ _ p => p

/-- Look a property up by name. -/
def getProp (props : List NodeProp) (key : String) : Option PropVal :=
  props.findSome? fun p =>
    match p with
    | .mk k v => if k = key then some v else none

/-- The node elements of an array-valued property, in order
(`traverseArray` skips array elements that are not node-shaped); absent or
non-array values contribute nothing. -/
def arrProp (props : List NodeProp) (key : String) : List ASTNode :=
  match getProp props key with
  | some (.arr elems) =>
    elems.filterMap fun e =>
      match e with
      | .node n => some n
      | _ => none
  | _ => []

/-- A single node-valued property, when present (the guarded
`if (nodeAny.x) this.traverse(nodeAny.x, ...)` accesses). -/
def nodeProp (props : List NodeProp) (key : String) : List ASTNode :=
  match getProp props key with
  | some (.node n) => [n]
  | _ => []

/-- The ordered child nodes `ASTTraverser.traverseChildren` recurses into,
one case per node kind as in the source's `switch`; the default arm scans
every property in order, descending into node values and node elements of
array values. -/
def childNodesOf (node : ASTNode) : List ASTNode :=
  let p := node.props
  match node.type with
  | "SourceUnit" => arrProp p "children"
  | "ContractDefinition" => arrProp p "baseContracts" ++ arrProp p "subNodes"
  | "FunctionDefinition" =>
    arrProp p "parameters" ++ arrProp p "returnParameters" ++
      arrProp p "modifiers" ++ nodeProp p "body"
  | "ModifierDefinition" => arrProp p "parameters" ++ nodeProp p "body"
  | "VariableDeclaration" => nodeProp p "typeName" ++ nodeProp p "expression"
  | "StructDefinition" => arrProp p "members"
  | "Block" => arrProp p "statements"
  | "IfStatement" =>
    nodeProp p "condition" ++ nodeProp p "trueBody" ++ nodeProp p "falseBody"
  | "WhileStatement" => nodeProp p "condition" ++ nodeProp p "body"
  | "DoWhileStatement" => nodeProp p "condition" ++ nodeProp p "body"
  | "ForStatement" =>
    nodeProp p "initExpression" ++ nodeProp p "conditionExpression" ++
      nodeProp p "loopExpression" ++ nodeProp p "body"
  | "TryStatement" =>
    nodeProp p "expression" ++ arrProp p "returnParameters" ++
      nodeProp p "body" ++ arrProp p "catchClauses"
  | "CatchClause" => arrProp p "parameters" ++ nodeProp p "body"
  | "ReturnStatement" => nodeProp p "expression"
  | "EmitStatement" => nodeProp p "expression"
  | "RevertStatement" => nodeProp p "expression"
  | "ExpressionStatement" => nodeProp p "expression"
  | "VariableDeclarationStatement" =>
    arrProp p "variables" ++ nodeProp p "initialValue"
  | "FunctionCall" =>
    nodeProp p "expression" ++ arrProp p "arguments" ++ arrProp p "names"
  | "MemberAccess" => nodeProp p "expression"
  | "IndexAccess" => nodeProp p "base" ++ nodeProp p "index"
  | "BinaryOperation" => nodeProp p "left" ++ nodeProp p "right"
  | "Assignment" => nodeProp p "left" ++ nodeProp p "right"
  | "UnaryOperation" => nodeProp p "subExpression"
  | "Conditional" =>
    nodeProp p "condition" ++ nodeProp p "trueExpression" ++
      nodeProp p "falseExpression"
  | "TupleExpression" => arrProp p "components"
  | "ArrayTypeName" => nodeProp p "baseTypeName" ++ nodeProp p "length"
  | "Mapping" => nodeProp p "keyType" ++ nodeProp p "valueType"
  | "NewExpression" => nodeProp p "typeName"
  | "ModifierInvocation" => arrProp p "arguments"
  | "InheritanceSpecifier" => nodeProp p "baseName" ++ arrProp p "arguments"
  | "UsingForDeclaration" => nodeProp p "typeName"
  | "StateVariableDeclaration" =>
    arrProp p "variables" ++ nodeProp p "initialValue"
  | "EventDefinition" => arrProp p "parameters"
  | "ErrorDefinition" => arrProp p "parameters"
  | "Identifier" => []
  | "NumberLiteral" => []
  | "StringLiteral" => []
  | "BooleanLiteral" => []
  | "HexLiteral" => []
  | "ElementaryTypeName" => []
  | "UserDefinedTypeName" => []
  | "PragmaDirective" => []
  | "ImportDirective" => []
  | "EnumValue" => []
  | "BreakStatement" => []
  | "ContinueStatement" => []
  | "PlaceholderStatement" => []
  | "AssemblyBlock" => []
  | "UncheckedStatement" => []
  | _ =>
    p.foldl
      (fun acc prop =>
        match prop with
        | .mk _ v =>
          match v with
          | .arr elems =>
            acc ++ (elems.filterMap fun e =>
              match e with
              | .node n => some n
              | _ => none)
          | .node n => acc ++ [n]
          | .prim => acc)
      []

/-- A visitor over state `σ`: for each node type, an optional callback taking
the state, the node and its parent, and returning the new state together with
the callback's `boolean | void` result. -/
def Visitor (σ : Type) : Type :=
  String → Option (σ → ASTNode → Option ASTNode → σ × Option Bool)

/-- JavaScript truthiness of a `boolean | void` value. -/
def jsTruthy : Option Bool → Bool
  | some b => b
  | none => false

/-- `ASTTraverser.traverse`: invoke the visitor callback for the node's type
if present; stop when its result is strictly equal to `true`; otherwise
recurse into the node's children in order, threading the state. -/
def ASTTraverser.traverse {σ : Type} :
    Nat → Visitor σ → ASTNode → Option ASTNode → σ → σ
  | 0, _, _, _, st => st
  | fuel + 1, vis, node, parent, st =>
    let step : σ × Option Bool :=
      match vis node.type with
      | some cb => cb st node parent
      | none => (st, none)
    if step.2 = some true then step.1
    else
      (childNodesOf node).foldl
        (fun s c => ASTTraverser.traverse fuel vis c (some node) s) step.1

/-- `ASTTraverser.traverseChildren` (the descent part of `traverse`). -/
def ASTTraverser.traverseChildren {σ : Type} (fuel : Nat) (vis : Visitor σ)
    (node : ASTNode) (st : σ) : σ :=
  (childNodesOf node).foldl
    (fun s c => ASTTraverser.traverse fuel vis c (some node) s) st

/-- The nodes of a full traversal in visiting order (the callback invocation
order of a visitor that never stops). -/
def nodesVisited : Nat → ASTNode → List ASTNode
  | 0, _ => []
  | fuel + 1, node => node :: ((childNodesOf node).map (nodesVisited fuel)).flatten

/-- A visitor with a single never-stopping callback for one node type (the
shape used by `findAll` and `findAtPosition`). -/
def mkSimpleVisitor {σ : Type} (t : String) (g : σ → ASTNode → σ) : Visitor σ :=
  fun ty => if ty = t then some (fun st n _ => (g st n, none)) else none

/-- The containment test of `ASTTraverser.findAtPosition`. -/
def containsPos (loc : SourceLocation) (line column : Nat) : Bool :=
  line ≥ loc.startLine && line ≤ loc.endLine &&
    (line > loc.startLine || column ≥ loc.startColumn) &&
    (line < loc.endLine || column ≤ loc.endColumn)

/-- The weighted span extent
`(loc.end.line - loc.start.line) * 1000 + (loc.end.column - loc.start.column)`
of `ASTTraverser.findAtPosition` (JavaScript subtraction, so over `Int`). -/
def rangeOf (loc : SourceLocation) : Int :=
  ((loc.endLine : Int) - loc.startLine) * 1000 +
    ((loc.endColumn : Int) - loc.startColumn)

/-- One step of the `FunctionDefinition` callback of
`ASTTraverser.findAtPosition`: keep the node when it has a span containing
the position and its weighted extent is strictly below the smallest seen
(`none` as the initial `Infinity`). -/
def fapStep (line column : Nat) (st : Option ASTNode × Option Int)
    (n : ASTNode) : Option ASTNode × Option Int :=
  match n.loc with
  | some loc =>
    if containsPos loc line column then
      let range := rangeOf loc
      if (match st.2 with
          | none => true
          | some sr => range < sr) then
        (some n, some range)
      else st
    else st
  | none => st

/-- `ASTTraverser.findAtPosition`. -/
def findAtPosition (fuel : Nat) (node : ASTNode) (line column : Nat) :
    Option ASTNode :=
  (ASTTraverser.traverse fuel
    (mkSimpleVisitor "FunctionDefinition" (fapStep line column))
    node none (none, none)).1

/-! ### Shared lemmas -/

theorem mem_setAdd {l : List String} {x y : String} :
    y ∈ setAdd l x ↔ y ∈ l ∨ y = x := by
  unfold setAdd
  by_cases h : l.contains x
  · have hx : x ∈ l := by simpa using h
    simp only [if_pos h]
    constructor
    · exact Or.inl
    · rintro (hy | rfl)
      · exact hy
      · exact hx
  · have hx : x ∉ l := by simpa using h
    simp [hx]

theorem resolveFunctionCall_name (call : FunctionCallInfo) (cf : ParsedFile)
    (ws : Workspace) : (resolveFunctionCall call cf ws).name = call.name := rfl

theorem callGraphFold_mem (fname : String) (cf : ParsedFile) (ws : Workspace) :
    ∀ (calls acc : List FunctionCallInfo),
      (∀ x ∈ acc, x.resolvedFunction ≠ none ∧ x.name ≠ fname) →
      ∀ x ∈ calls.foldl
        (fun acc call =>
          if call.name = fname then acc
          else
            let resolved := resolveFunctionCall call cf ws
            match resolved.resolvedFunction with
            | some _ => acc ++ [resolved]
            | none => acc) acc,
      x.resolvedFunction ≠ none ∧ x.name ≠ fname := by
  intro calls
  induction calls with
  | nil => exact fun acc hacc x hx => hacc x hx
  | cons call rest ih =>
    intro acc hacc x hx
    simp only [List.foldl_cons] at hx
    refine ih _ ?_ x hx
    by_cases hname : call.name = fname
    · simpa [hname] using hacc
    · simp only [if_neg hname]
      intro y hy
      revert hy
      cases hres : (resolveFunctionCall call cf ws).resolvedFunction with
      | some f =>
        simp only [hres, List.mem_append, List.mem_singleton]
        rintro (hy | rfl)
        · exact hacc y hy
        · refine ⟨by simp [hres], ?_⟩
          rw [resolveFunctionCall_name]
          exact hname
      | none =>
        simp only [hres]
        exact hacc y

/-- C1: for every function, workspace index and current file, every entry in
the list returned by `buildCallGraph` has a non-null `resolvedFunction`, and
no entry's name equals the analyzed function's name (the self-call is
dropped). -/
theorem buildCallGraph_resolved_no_self
    (functionInfo : FunctionInfo) (currentFile : ParsedFile)
    (workspaceFiles : Workspace) (c : FunctionCallInfo)
    (hc : c ∈ buildCallGraph functionInfo currentFile workspaceFiles) :
    c.resolvedFunction ≠ none ∧ c.name ≠ functionInfo.name := by
  unfold buildCallGraph at hc
  exact callGraphFold_mem functionInfo.name currentFile workspaceFiles
    (extractFunctionCalls functionInfo) [] (by simp) c hc

/-- A concrete helper function for exercising the call-graph builder. -/
def c1Helper : FunctionInfo :=
  { name := "_helper", visibility := "internal", stateMutability := none,
    parameters := [], returnParameters := [], modifiers := [],
    body := "{ }", fullSource := "function _helper() internal { }",
    location := ⟨10, 0, 12, 1⟩, filePath := "a.sol" }

/-- A concrete analyzed function whose body calls `_helper` and itself. -/
def c1Main : FunctionInfo :=
  { name := "doWork", visibility := "public", stateMutability := none,
    parameters := [], returnParameters := [], modifiers := [],
    body := "{ _helper(); doWork(); }",
    fullSource := "function doWork() public" ++ "\n" ++ "    _helper();" ++
      "\n" ++ "    doWork();",
    location := ⟨1, 0, 4, 1⟩, filePath := "a.sol" }

/-- A concrete contract holding both functions. -/
def c1Contract : ContractInfo :=
  { name := "C", kind := "contract", functions := [c1Main, c1Helper],
    structs := [], enums := [], stateVariables := [], baseContracts := [],
    location := ⟨0, 0, 20, 1⟩, filePath := "a.sol" }

/-- The parsed file for the call-graph example. -/
def c1File : ParsedFile :=
  { filePath := "a.sol", contracts := [c1Contract], imports := [], pragmas := [] }

/-- The workspace for the call-graph example. -/
def c1Ws : Workspace := [("a.sol", c1File)]

/-- The single resolved entry `buildCallGraph` produces for `c1Main`. -/
def c1Call : FunctionCallInfo :=
  { name := "_helper", expression := "_helper", arguments := [],
    location := ⟨2, 4, 2, 12⟩, resolvedFunction := some c1Helper }

/-- Witness for C1: a call graph with an actual entry, on which the theorem's
conclusions hold (and the self-call `doWork()` was dropped). -/
theorem buildCallGraph_resolved_no_self_witness :
    c1Call ∈ buildCallGraph c1Main c1File c1Ws ∧
      (c1Call.resolvedFunction ≠ none ∧ c1Call.name ≠ c1Main.name) :=
  ⟨by decide,
   buildCallGraph_resolved_no_self c1Main c1File c1Ws c1Call (by decide)⟩

theorem foldl_setAdd_filter_mem (p : String → Bool) :
    ∀ (l acc : List String) (x : String),
      x ∈ l.foldl (fun acc i => if p i then setAdd acc i else acc) acc ↔
        x ∈ acc ∨ (x ∈ l ∧ p x = true) := by
  intro l
  induction l with
  | nil => simp
  | cons i t ih =>
    intro acc x
    simp only [List.foldl_cons]
    rw [ih]
    by_cases hp : p i
    · simp only [if_pos hp, mem_setAdd]
      constructor
      · rintro ((hx | rfl) | ⟨hxt, hpx⟩)
        · exact Or.inl hx
        · exact Or.inr ⟨List.mem_cons_self _ _, hp⟩
        · exact Or.inr ⟨List.mem_cons_of_mem _ hxt, hpx⟩
      · rintro (hx | ⟨hxct, hpx⟩)
        · exact Or.inl (Or.inl hx)
        · rcases List.mem_cons.mp hxct with rfl | hxt
          · exact Or.inl (Or.inr rfl)
          · exact Or.inr ⟨hxt, hpx⟩
    · simp only [if_neg hp]
      constructor
      · rintro (hx | ⟨hxt, hpx⟩)
        · exact Or.inl hx
        · exact Or.inr ⟨List.mem_cons_of_mem _ hxt, hpx⟩
      · rintro (hx | ⟨hxct, hpx⟩)
        · exact Or.inl hx
        · rcases List.mem_cons.mp hxct with rfl | hxt
          · exact absurd hpx (by simpa using hp)
          · exact Or.inr ⟨hxt, hpx⟩

/-- C8: `extractStateVariableReferences` returns exactly the intersection of
the identifier occurrences of the function's full source with the names of
the enclosing contract's declared state variables — every identifier equal to
a state-variable name is reported (no shadowing analysis) and nothing else
is. -/
theorem extractStateVariableReferences_eq_inter
    (functionInfo : FunctionInfo) (currentContract : ContractInfo) (x : String) :
    x ∈ extractStateVariableReferences functionInfo currentContract ↔
      x ∈ identifiersOf functionInfo.fullSource ∧
        x ∈ currentContract.stateVariables.map (·.name) := by
  unfold extractStateVariableReferences
  rw [foldl_setAdd_filter_mem]
  simp

theorem splitCharsOn_ne_nil (sep : Char) : ∀ cs, splitCharsOn sep cs ≠ [] := by
  intro cs
  match cs with
  | [] => simp [splitCharsOn]
  | c :: cs =>
    unfold splitCharsOn
    by_cases h : c = sep
    · simp [h]
    · simp only [if_neg h]
      cases splitCharsOn sep cs <;> simp

theorem splitCharsOn_append (sep : Char) :
    ∀ xs ys, splitCharsOn sep (xs ++ sep :: ys) =
      splitCharsOn sep xs ++ splitCharsOn sep ys := by
  intro xs ys
  induction xs with
  | nil => simp [splitCharsOn]
  | cons c xs ih =>
    show splitCharsOn sep (c :: (xs ++ sep :: ys)) =
      splitCharsOn sep (c :: xs) ++ splitCharsOn sep ys
    by_cases h : c = sep
    · simp only [splitCharsOn, if_pos h, ih]
      simp
    · simp only [splitCharsOn, if_neg h, ih]
      cases hx : splitCharsOn sep xs with
      | nil => exact absurd hx (splitCharsOn_ne_nil sep xs)
      | cons r rs => simp

theorem splitCharsOn_of_not_mem (sep : Char) :
    ∀ cs : List Char, sep ∉ cs → splitCharsOn sep cs = [cs] := by
  intro cs h
  induction cs with
  | nil => rfl
  | cons c cs ih =>
    have hc : ¬c = sep := fun hc => h (by simp [hc])
    have hcs : sep ∉ cs := fun hm => h (List.mem_cons_of_mem _ hm)
    unfold splitCharsOn
    rw [ih hcs]
    simp [hc]

theorem mem_splitCharsOn_not_mem (sep : Char) :
    ∀ (cs : List Char) (seg : List Char), seg ∈ splitCharsOn sep cs → sep ∉ seg := by
  intro cs
  induction cs with
  | nil => intro seg h; simp [splitCharsOn] at h; simp [h]
  | cons c cs ih =>
    intro seg h
    unfold splitCharsOn at h
    by_cases hc : c = sep
    · simp only [if_pos hc] at h
      rcases List.mem_cons.mp h with rfl | hm
      · simp
      · exact ih seg hm
    · simp only [if_neg hc] at h
      cases hx : splitCharsOn sep cs with
      | nil => exact absurd hx (splitCharsOn_ne_nil sep cs)
      | cons r rs =>
        rw [hx] at h
        rcases List.mem_cons.mp h with rfl | hm
        · intro hmem
          rcases List.mem_cons.mp hmem with rfl | hmem2
          · exact hc rfl
          · exact ih r (by rw [hx]; exact List.mem_cons_self _ _) hmem2
        · exact ih seg (by rw [hx]; exact List.mem_cons_of_mem _ hm)

theorem toList_append (a b : String) : (a ++ b).toList = a.toList ++ b.toList :=
  String.data_append a b

theorem toList_dotcat (X f : String) :
    (X ++ "." ++ f).toList = X.toList ++ '.' :: f.toList := by
  rw [toList_append, toList_append]
  simp

theorem getLastD_append_of_ne_nil {α : Type} (l l2 : List α) (d : α)
    (h : l2 ≠ []) : (l ++ l2).getLastD d = l2.getLastD d := by
  rw [List.getLastD_eq_getLast?, List.getLastD_eq_getLast?, List.getLast?_append]
  cases hl : l2.getLast? with
  | none => exact absurd (List.getLast?_eq_none_iff.mp hl) h
  | some a => simp

theorem localNameOf_concat (X f : String) :
    localNameOf (X ++ "." ++ f) = localNameOf f := by
  unfold localNameOf jsSplit
  rw [toList_dotcat, splitCharsOn_append, List.map_append,
    getLastD_append_of_ne_nil]
  simp [splitCharsOn_ne_nil]

theorem find?_eq_head?_filter {α : Type} (p : α → Bool) :
    ∀ l : List α, l.find? p = (l.filter p).head? := by
  intro l
  induction l with
  | nil => rfl
  | cons a t ih =>
    rw [List.find?_cons, List.filter_cons]
    by_cases h : p a
    · simp only [h]
      rfl
    · have hf : p a = false := by simpa using h
      simp only [hf]
      exact ih

/-- Search enumeration following the spec's words for function lookup: every
function of the requested name, over every contract of every file in
insertion order. -/
def workspaceFunctionsNamed (name : String) (ws : Workspace) : List FunctionInfo :=
  (ws.flatMap fun e => e.2.contracts).flatMap
    fun c => c.functions.filter (fun f => f.name = name)

/-- C9: `resolveSingleFunction` ignores a contract qualifier entirely —
`resolveSingleFunction ("X.f")` equals `resolveSingleFunction "f"`, and both
return the first function of the unqualified name over all workspace files in
insertion order, whatever contract it belongs to. -/
theorem resolveSingleFunction_ignores_qualifier (X f : String) (ws : Workspace) :
    resolveSingleFunction (X ++ "." ++ f) ws = resolveSingleFunction f ws ∧
      resolveSingleFunction (X ++ "." ++ f) ws =
        (workspaceFunctionsNamed (localNameOf f) ws).head? := by
  constructor
  · simp only [resolveSingleFunction, localNameOf_concat]
  · simp only [resolveSingleFunction, localNameOf_concat,
      workspaceFunctionsNamed, List.flatMap_assoc, List.head?_flatMap,
      find?_eq_head?_filter]

theorem mk_toList (s : String) : String.mk s.toList = s := rfl

theorem localNameOf_of_not_mem {s : String} (h : '.' ∉ s.toList) :
    localNameOf s = s := by
  unfold localNameOf jsSplit
  rw [splitCharsOn_of_not_mem _ _ h]
  simp [mk_toList]

theorem jsSplit_dotcat {X T : String} (hX : '.' ∉ X.toList)
    (hT : '.' ∉ T.toList) : jsSplit (X ++ "." ++ T) '.' = [X, T] := by
  unfold jsSplit
  rw [toList_dotcat, splitCharsOn_append, splitCharsOn_of_not_mem _ _ hX,
    splitCharsOn_of_not_mem _ _ hT]
  simp [mk_toList]

theorem qualifierOf_dotcat {X T : String} (hX : '.' ∉ X.toList)
    (hT : '.' ∉ T.toList) : qualifierOf (X ++ "." ++ T) = some X := by
  unfold qualifierOf
  rw [jsSplit_dotcat hX hT]
  simp

theorem localNameOf_dotcat {X T : String} (hX : '.' ∉ X.toList)
    (hT : '.' ∉ T.toList) : localNameOf (X ++ "." ++ T) = T := by
  rw [localNameOf_concat, localNameOf_of_not_mem hT]

/-- C10: a contract qualifier only restricts `resolveSingleType`: whenever no
contract named `X` declares a struct or enum named `T`, `resolveSingleType`
on `X.T` returns null, even if a matching type exists in another contract —
there is no fall-back to an unqualified search. -/
theorem resolveSingleType_qualified_none (ws : Workspace) (X T : String)
    (hX : '.' ∉ X.toList) (hT : '.' ∉ T.toList)
    (h : ∀ e ∈ ws, ∀ c ∈ (e : String × ParsedFile).2.contracts, c.name = X →
        (∀ s ∈ c.structs, s.name ≠ T) ∧ (∀ en ∈ c.enums, en.name ≠ T)) :
    resolveSingleType (X ++ "." ++ T) ws = none := by
  unfold resolveSingleType
  rw [localNameOf_dotcat hX hT, qualifierOf_dotcat hX hT]
  rw [List.findSome?_eq_none]
  intro e he
  unfold findTypeInFile
  rw [List.findSome?_eq_none]
  intro c hc
  by_cases hname : c.name = X
  · have hfs : c.structs.find? (fun s => s.name = T) = none := by
      rw [List.find?_eq_none]
      intro s hs
      simpa using (h e he c hc hname).1 s hs
    have hfe : c.enums.find? (fun en => en.name = T) = none := by
      rw [List.find?_eq_none]
      intro en hen
      simpa using (h e he c hc hname).2 en hen
    simp [hname, hfs, hfe]
  · simp [hname]

/-- A struct named `T` living in contract `Y`, for the C10 witness. -/
def c10Struct : StructInfo :=
  { name := "T", members := [], fullSource := "struct T { }",
    location := ⟨1, 0, 1, 12⟩, filePath := "b.sol", contractName := some "Y" }

/-- The contract `Y` declaring `T`, for the C10 witness. -/
def c10Contract : ContractInfo :=
  { name := "Y", kind := "contract", functions := [], structs := [c10Struct],
    enums := [], stateVariables := [], baseContracts := [],
    location := ⟨0, 0, 5, 1⟩, filePath := "b.sol" }

/-- The workspace for the C10 witness. -/
def c10Ws : Workspace :=
  [("b.sol",
    { filePath := "b.sol", contracts := [c10Contract], imports := [],
      pragmas := [] })]

/-- Witness for C10: `X.T` resolves to null although an unqualified `T`
exists (in contract `Y`). -/
theorem resolveSingleType_qualified_none_witness :
    resolveSingleType ("X" ++ "." ++ "T") c10Ws = none ∧
      resolveSingleType "T" c10Ws ≠ none :=
  ⟨resolveSingleType_qualified_none c10Ws "X" "T" (by decide) (by decide)
      (by decide),
   by decide⟩

theorem findSome?_filter {α β : Type} (p : α → Bool) (g : α → Option β) :
    ∀ l : List α, (l.filter p).findSome? g =
      l.findSome? (fun a => if p a then g a else none) := by
  intro l
  induction l with
  | nil => rfl
  | cons a t ih =>
    rw [List.filter_cons]
    by_cases h : p a
    · rw [if_pos h, List.findSome?_cons, List.findSome?_cons]
      simp only [if_pos h]
      cases g a <;> simp [ih]
    · have hf : p a = false := by simpa using h
      rw [hf]
      rw [List.findSome?_cons]
      simp only [hf]
      simpa using ih

/-- All matches of a type name in one file, following the spec's words: the
file's contracts in order (restricted to the qualifying contract when a
qualifier is given), each contract's structs then its enums. -/
def fileTypeMatches (typeName : String) (contractName : Option String)
    (file : ParsedFile) : List TypeReference :=
  (file.contracts.filter fun c =>
      match contractName with
      | some cn => c.name = cn
      | none => true).flatMap
    fun c =>
      (c.structs.filter (fun s => s.name = typeName)).map
        (fun s => typeRefOf contractName typeName (TypeDef.struct s)) ++
      (c.enums.filter (fun e => e.name = typeName)).map
        (fun e => typeRefOf contractName typeName (TypeDef.enum e))

/-- Search enumeration following the spec's words for type lookup: the
function's own file first, then the remaining index files in insertion order
(the current file's path skipped). -/
def specTypeMatches (typeName : String) (currentFile : ParsedFile)
    (ws : Workspace) : List TypeReference :=
  fileTypeMatches (localNameOf typeName) (qualifierOf typeName) currentFile ++
    (ws.filter fun e => e.1 ≠ currentFile.filePath).flatMap
      fun e => fileTypeMatches (localNameOf typeName) (qualifierOf typeName) e.2

theorem structEnumBody_eq_head? (typeName : String) (q : Option String)
    (c : ContractInfo) :
    (match c.structs.find? (fun s => s.name = typeName) with
     | some s => some (typeRefOf q typeName (TypeDef.struct s))
     | none =>
       match c.enums.find? (fun e => e.name = typeName) with
       | some e => some (typeRefOf q typeName (TypeDef.enum e))
       | none => none) =
    ((c.structs.filter (fun s => s.name = typeName)).map
        (fun s => typeRefOf q typeName (TypeDef.struct s)) ++
      (c.enums.filter (fun e => e.name = typeName)).map
        (fun e => typeRefOf q typeName (TypeDef.enum e))).head? := by
  rw [find?_eq_head?_filter, find?_eq_head?_filter, List.head?_append,
    List.head?_map, List.head?_map]
  cases (c.structs.filter (fun s => s.name = typeName)).head? <;>
    cases (c.enums.filter (fun e => e.name = typeName)).head? <;> simp

theorem findTypeInFile_eq_head? (typeName : String) (q : Option String)
    (file : ParsedFile) :
    findTypeInFile typeName q file = (fileTypeMatches typeName q file).head? := by
  unfold findTypeInFile fileTypeMatches
  rw [List.head?_flatMap, findSome?_filter]
  congr 1
  funext c
  cases q with
  | none => simpa using structEnumBody_eq_head? typeName none c
  | some cn =>
    by_cases hc : c.name = cn
    · have h1 : (c.name != cn) = false := by simp [hc]
      have h2 : decide (c.name = cn) = true := by simp [hc]
      simp only [h1, h2, Bool.false_eq_true, if_false, if_true]
      exact structEnumBody_eq_head? typeName (some cn) c
    · have h1 : (c.name != cn) = true := by simp [hc]
      have h2 : decide (c.name = cn) = false := by simp [hc]
      simp only [h1, h2, Bool.false_eq_true, if_false, if_true]

theorem option_match_eq_or {α : Type} (o : Option α) (y : Option α) :
    (match o with
     | some r => some r
     | none => y) = o.or y := by
  cases o <;> rfl

theorem resolveType_eq_head? (typeName : String) (currentFile : ParsedFile)
    (ws : Workspace) :
    resolveType typeName currentFile ws =
      (specTypeMatches typeName currentFile ws).head? := by
  simp only [resolveType, specTypeMatches]
  rw [List.head?_append]
  have hsecond :
      List.findSome?
        (fun entry =>
          if entry.1 = currentFile.filePath then none
          else findTypeInFile (localNameOf typeName) (qualifierOf typeName)
            entry.2) ws =
      ((ws.filter fun e => e.1 ≠ currentFile.filePath).flatMap fun e =>
        fileTypeMatches (localNameOf typeName) (qualifierOf typeName)
          e.2).head? := by
    rw [List.head?_flatMap, findSome?_filter]
    congr 1
    funext e
    by_cases hp : e.1 = currentFile.filePath
    · simp [hp]
    · simp [hp, findTypeInFile_eq_head?]
  cases hft : findTypeInFile (localNameOf typeName) (qualifierOf typeName)
      currentFile with
  | some r =>
    have hh : (fileTypeMatches (localNameOf typeName) (qualifierOf typeName)
        currentFile).head? = some r :=
      (findTypeInFile_eq_head? _ _ _).symm.trans hft
    simp [hh]
  | none =>
    have hh : (fileTypeMatches (localNameOf typeName) (qualifierOf typeName)
        currentFile).head? = none :=
      (findTypeInFile_eq_head? _ _ _).symm.trans hft
    simpa [hh] using hsecond

theorem resolveTypesFold_mem (cf : ParsedFile) (ws : Workspace) :
    ∀ (names : List String) (acc : List TypeReference × List String)
      (r : TypeReference),
      r ∈ (names.foldl
        (fun (acc : List TypeReference × List String) typeName =>
          let normalizedName := popOrSelf typeName
          if acc.2.contains normalizedName then acc
          else
            let seen := acc.2 ++ [normalizedName]
            match resolveType typeName cf ws with
            | some reference =>
              if reference.definition.isSome then (acc.1 ++ [reference], seen)
              else (acc.1, seen)
            | none => (acc.1, seen)) acc).1 →
      r ∈ acc.1 ∨ ∃ t ∈ names, resolveType t cf ws = some r := by
  intro names
  induction names with
  | nil => exact fun acc r hr => Or.inl hr
  | cons t rest ih =>
    intro acc r hr
    simp only [List.foldl_cons] at hr
    rcases ih _ r hr with h1 | ⟨t2, ht2, hres⟩
    · revert h1
      by_cases hseen : popOrSelf t ∈ acc.2
      · intro h1
        exact Or.inl (by simpa [hseen] using h1)
      · cases hres2 : resolveType t cf ws with
        | some ref =>
          by_cases hdef : ref.definition.isSome
          · intro h1
            simp [hseen, hres2, hdef] at h1
            rcases h1 with h | rfl
            · exact Or.inl h
            · exact Or.inr ⟨t, List.mem_cons_self _ _, hres2⟩
          · intro h1
            exact Or.inl (by simpa [hseen, hres2, hdef] using h1)
        | none =>
          intro h1
          exact Or.inl (by simpa [hseen, hres2] using h1)
    · exact Or.inr ⟨t2, List.mem_cons_of_mem _ ht2, hres⟩

/-- C5: per-candidate type resolution equals the first element of the spec's
search enumeration — the function's own file first, then the remaining index
files in insertion order, first matching struct or enum (restricted to the
qualifying contract when qualified), `none` when nothing matches anywhere
(the function is total: no error is ever raised) — and every entry of
`resolveTypes`' output comes from a candidate that resolved, so unmatched
candidates are silently dropped. -/
theorem resolveType_first_match_spec_order :
    (∀ (typeName : String) (currentFile : ParsedFile) (ws : Workspace),
       resolveType typeName currentFile ws =
         (specTypeMatches typeName currentFile ws).head?) ∧
    (∀ (functionInfo : FunctionInfo) (currentFile : ParsedFile)
       (ws : Workspace) (r : TypeReference),
       r ∈ resolveTypes functionInfo currentFile ws →
         ∃ t ∈ extractAllTypeNames functionInfo,
           resolveType t currentFile ws = some r) := by
  constructor
  · exact resolveType_eq_head?
  · intro fi cf ws r hr
    unfold resolveTypes at hr
    rcases resolveTypesFold_mem cf ws (extractAllTypeNames fi) ([], []) r hr
      with h | h
    · simp at h
    · exact h

/-- A struct definition for the type-resolution examples. -/
def c5Struct : StructInfo :=
  { name := "Foo", members := [], fullSource := "struct Foo { }",
    location := ⟨1, 0, 1, 14⟩, filePath := "c.sol", contractName := some "C" }

/-- The contract declaring `Foo`. -/
def c5Contract : ContractInfo :=
  { name := "C", kind := "contract", functions := [], structs := [c5Struct],
    enums := [], stateVariables := [], baseContracts := [],
    location := ⟨0, 0, 9, 1⟩, filePath := "c.sol" }

/-- The parsed file for the type-resolution examples. -/
def c5File : ParsedFile :=
  { filePath := "c.sol", contracts := [c5Contract], imports := [],
    pragmas := [] }

/-- The workspace for the type-resolution examples. -/
def c5Ws : Workspace := [("c.sol", c5File)]

/-- A function whose parameter list references `Foo`. -/
def c5Fi : FunctionInfo :=
  { name := "g", visibility := "public", stateMutability := none,
    parameters := [{ name := "x", typeName := "Foo",
                     storageLocation := some "memory" }],
    returnParameters := [], modifiers := [], body := "{ }",
    fullSource := "function g(Foo memory x) public { }",
    location := ⟨3, 0, 3, 35⟩, filePath := "c.sol" }

/-- The reference `resolveTypes` produces for `c5Fi`. -/
def c5Ref : TypeReference :=
  { name := "Foo", kind := "struct", definition := some (TypeDef.struct c5Struct) }

/-- Witness for C5: a concrete output entry of `resolveTypes`, produced by a
resolved candidate. -/
theorem resolveType_first_match_spec_order_witness :
    c5Ref ∈ resolveTypes c5Fi c5File c5Ws ∧
      ∃ t ∈ extractAllTypeNames c5Fi, resolveType t c5File c5Ws = some c5Ref :=
  ⟨by decide,
   resolveType_first_match_spec_order.2 c5Fi c5File c5Ws c5Ref (by decide)⟩

theorem upperRun_wordlike {cs : List Char} {run rest : List Char}
    (h : upperRun cs = some (run, rest)) : ∀ ch ∈ run, isWordChar ch := by
  simp only [upperRun] at h
  repeat' split at h
  all_goals try (exfalso; exact Option.noConfusion h)
  simp only [Option.some.injEq, Prod.mk.injEq] at h
  obtain ⟨rfl, -⟩ := h
  intro ch hch
  exact List.mem_takeWhile_imp hch

theorem cap_wordlike_declWithLoc {prev : Option Char} {cs : List Char}
    {cap : String} {n : Nat} (h : matchDeclWithLoc prev cs = some (cap, n)) :
    ∀ ch ∈ cap.toList, isWordChar ch := by
  simp only [matchDeclWithLoc] at h
  repeat' split at h
  all_goals try (exfalso; exact Option.noConfusion h)
  all_goals
    simp only [Option.some.injEq, Prod.mk.injEq] at h
  all_goals obtain ⟨rfl, -⟩ := h
  all_goals intro ch hch
  all_goals exact upperRun_wordlike (by assumption) ch hch

theorem cap_wordlike_declSimple {prev : Option Char} {cs : List Char}
    {cap : String} {n : Nat} (h : matchDeclSimple prev cs = some (cap, n)) :
    ∀ ch ∈ cap.toList, isWordChar ch := by
  simp only [matchDeclSimple] at h
  repeat' split at h
  all_goals try (exfalso; exact Option.noConfusion h)
  all_goals
    simp only [Option.some.injEq, Prod.mk.injEq] at h
  all_goals obtain ⟨rfl, -⟩ := h
  all_goals intro ch hch
  all_goals exact upperRun_wordlike (by assumption) ch hch

theorem cap_wordlike_instantiation {prev : Option Char} {cs : List Char}
    {cap : String} {n : Nat} (h : matchInstantiation prev cs = some (cap, n)) :
    ∀ ch ∈ cap.toList, isWordChar ch := by
  simp only [matchInstantiation] at h
  repeat' split at h
  all_goals try (exfalso; exact Option.noConfusion h)
  all_goals
    simp only [Option.some.injEq, Prod.mk.injEq] at h
  all_goals obtain ⟨rfl, -⟩ := h
  all_goals intro ch hch
  all_goals exact upperRun_wordlike (by assumption) ch hch

theorem cap_wordlike_enumAccess {prev : Option Char} {cs : List Char}
    {cap : String} {n : Nat} (h : matchEnumAccess prev cs = some (cap, n)) :
    ∀ ch ∈ cap.toList, isWordChar ch := by
  simp only [matchEnumAccess] at h
  repeat' split at h
  all_goals try (exfalso; exact Option.noConfusion h)
  all_goals
    simp only [Option.some.injEq, Prod.mk.injEq] at h
  all_goals obtain ⟨rfl, -⟩ := h
  all_goals intro ch hch
  all_goals exact upperRun_wordlike (by assumption) ch hch

theorem cap_wordlike_typeCompareAlt {prev : Option Char} {cs : List Char}
    {cap : String} {n : Nat}
    (h : matchTypeCompare.matchTypeCompareAlt prev cs = some (cap, n)) :
    ∀ ch ∈ cap.toList, isWordChar ch := by
  simp only [matchTypeCompare.matchTypeCompareAlt] at h
  repeat' split at h
  all_goals try (exfalso; exact Option.noConfusion h)
  all_goals
    simp only [Option.some.injEq, Prod.mk.injEq] at h
  all_goals obtain ⟨rfl, -⟩ := h
  all_goals intro ch hch
  all_goals exact upperRun_wordlike (by assumption) ch hch

theorem cap_wordlike_typeCompare {prev : Option Char} {cs : List Char}
    {cap : String} {n : Nat} (h : matchTypeCompare prev cs = some (cap, n)) :
    ∀ ch ∈ cap.toList, isWordChar ch := by
  simp only [matchTypeCompare] at h
  repeat' split at h
  all_goals try (exfalso; exact Option.noConfusion h)
  all_goals first
    | exact cap_wordlike_typeCompareAlt h
    | (simp only [Option.some.injEq, Prod.mk.injEq] at h
       obtain ⟨rfl, -⟩ := h
       intro ch hch
       exact upperRun_wordlike (by assumption) ch hch)

theorem cap_wordlike_capitalized {prev : Option Char} {cs : List Char}
    {cap : String} {n : Nat} (h : matchCapitalized prev cs = some (cap, n)) :
    ∀ ch ∈ cap.toList, isWordChar ch := by
  simp only [matchCapitalized] at h
  repeat' split at h
  all_goals try (exfalso; exact Option.noConfusion h)
  simp only [Option.some.injEq, Prod.mk.injEq] at h
  obtain ⟨rfl, -⟩ := h
  intro ch hch
  exact upperRun_wordlike (by assumption) ch hch

theorem mem_scanWith {matchAt : Option Char → List Char → Option (String × Nat)} :
    ∀ (fuel : Nat) (prev : Option Char) (cs : List Char) (x : String),
      x ∈ scanWith matchAt fuel prev cs →
      ∃ p2 c2 pr, matchAt p2 c2 = some pr ∧ x = pr.1 := by
  intro fuel
  induction fuel with
  | zero => intro prev cs x h; simp [scanWith] at h
  | succ fuel ih =>
    intro prev cs x h
    match cs with
    | [] => simp [scanWith] at h
    | c :: cs2 =>
      simp only [scanWith] at h
      cases hm : matchAt prev (c :: cs2) with
      | some pr =>
        obtain ⟨cap, k⟩ := pr
        rw [hm] at h
        simp only [] at h
        rcases List.mem_cons.mp h with heq | h2
        · exact ⟨prev, c :: cs2, (cap, k), hm, heq⟩
        · exact ih _ _ _ h2
      | none =>
        rw [hm] at h
        exact ih _ _ _ h

theorem wordChar_not_dot {s : String} (h : ∀ ch ∈ s.toList, isWordChar ch) :
    '.' ∉ s.toList :=
  fun hm => absurd (h '.' hm) (by decide)

theorem mem_allCaptures_dotfree
    {matchAt : Option Char → List Char → Option (String × Nat)}
    (hcap : ∀ {p c : _} {cap : String} {n : Nat},
      matchAt p c = some (cap, n) → ∀ ch ∈ cap.toList, isWordChar ch)
    {s : String} {x : String} (h : x ∈ allCaptures matchAt s) :
    '.' ∉ x.toList := by
  obtain ⟨p2, c2, pr, hm, rfl⟩ := mem_scanWith _ _ _ _ h
  obtain ⟨cap, k⟩ := pr
  exact wordChar_not_dot (hcap hm)

theorem mem_addTypeIfValid {ts : List String} {n x : String}
    (h : x ∈ addTypeIfValid ts n) :
    x ∈ ts ∨ (x = n ∧ isInterfaceName n = false) := by
  unfold addTypeIfValid at h
  by_cases h1 : n = ""
  · rw [if_pos h1] at h; exact Or.inl h
  rw [if_neg h1] at h
  by_cases h2 : ELEMENTARY_TYPES.contains (toLowerStr n) = true
  · rw [if_pos h2] at h; exact Or.inl h
  rw [if_neg h2] at h
  by_cases h3 : SKIP_NAMES.contains n = true
  · rw [if_pos h3] at h; exact Or.inl h
  rw [if_neg h3] at h
  by_cases h4 : n.length < 2
  · rw [if_pos h4] at h; exact Or.inl h
  rw [if_neg h4] at h
  by_cases h5 : isInterfaceName n = true
  · rw [if_pos h5] at h; exact Or.inl h
  rw [if_neg h5] at h
  rcases mem_setAdd.mp h with hx | rfl
  · exact Or.inl hx
  · exact Or.inr ⟨rfl, by simpa using h5⟩

theorem mem_foldl_addTypeIfValid :
    ∀ (l ts : List String) (x : String), x ∈ l.foldl addTypeIfValid ts →
      x ∈ ts ∨ (x ∈ l ∧ isInterfaceName x = false) := by
  intro l
  induction l with
  | nil => exact fun ts x h => Or.inl h
  | cons nm t ih =>
    intro ts x h
    rw [List.foldl_cons] at h
    rcases ih _ x h with h1 | ⟨hx, hint⟩
    · rcases mem_addTypeIfValid h1 with h2 | ⟨rfl, hint⟩
      · exact Or.inl h2
      · exact Or.inr ⟨List.mem_cons_self _ _, hint⟩
    · exact Or.inr ⟨List.mem_cons_of_mem _ hx, hint⟩

theorem mem_foldl_addTypeIfValid_guard (cond : String → Bool) :
    ∀ (l ts : List String) (x : String),
      x ∈ l.foldl (fun ts name => if cond name then ts
        else addTypeIfValid ts name) ts →
      x ∈ ts ∨ (x ∈ l ∧ isInterfaceName x = false) := by
  intro l
  induction l with
  | nil => exact fun ts x h => Or.inl h
  | cons nm t ih =>
    intro ts x h
    rw [List.foldl_cons] at h
    rcases ih _ x h with h1 | ⟨hx, hint⟩
    · by_cases hc : cond nm = true
      · rw [if_pos hc] at h1
        exact Or.inl h1
      · rw [if_neg hc] at h1
        rcases mem_addTypeIfValid h1 with h2 | ⟨rfl, hint⟩
        · exact Or.inl h2
        · exact Or.inr ⟨List.mem_cons_self _ _, hint⟩
    · exact Or.inr ⟨List.mem_cons_of_mem _ hx, hint⟩

theorem mem_extractTypesFromBody (src : String) (ts : List String) (x : String)
    (h : x ∈ extractTypesFromBody src ts) :
    x ∈ ts ∨ (isInterfaceName x = false ∧ '.' ∉ x.toList) := by
  unfold extractTypesFromBody at h
  rcases mem_foldl_addTypeIfValid_guard _ _ _ _ h with h5 | ⟨hc, hi⟩
  · rcases mem_foldl_addTypeIfValid _ _ _ h5 with h4 | ⟨hc, hi⟩
    · rcases mem_foldl_addTypeIfValid _ _ _ h4 with h3 | ⟨hc, hi⟩
      · rcases mem_foldl_addTypeIfValid _ _ _ h3 with h2 | ⟨hc, hi⟩
        · rcases mem_foldl_addTypeIfValid _ _ _ h2 with h1 | ⟨hc, hi⟩
          · rcases mem_foldl_addTypeIfValid _ _ _ h1 with h0 | ⟨hc, hi⟩
            · exact Or.inl h0
            · exact Or.inr ⟨hi,
                mem_allCaptures_dotfree (fun hm => cap_wordlike_declWithLoc hm) hc⟩
          · exact Or.inr ⟨hi,
              mem_allCaptures_dotfree (fun hm => cap_wordlike_declSimple hm) hc⟩
        · exact Or.inr ⟨hi,
            mem_allCaptures_dotfree (fun hm => cap_wordlike_instantiation hm) hc⟩
      · exact Or.inr ⟨hi,
          mem_allCaptures_dotfree (fun hm => cap_wordlike_enumAccess hm) hc⟩
    · exact Or.inr ⟨hi,
        mem_allCaptures_dotfree (fun hm => cap_wordlike_typeCompare hm) hc⟩
  · exact Or.inr ⟨hi,
      mem_allCaptures_dotfree (fun hm => cap_wordlike_capitalized hm) hc⟩

theorem getLastD_mem {α : Type} :
    ∀ (l : List α) (d : α), l ≠ [] → l.getLastD d ∈ l := by
  intro l
  induction l with
  | nil => intro d h; exact absurd rfl h
  | cons a t ih =>
    intro d _
    rw [List.getLastD_cons]
    cases ht : t with
    | nil => simp
    | cons b t2 =>
      rw [← ht]
      exact List.mem_cons_of_mem _ (ih a (by simp [ht]))

theorem localNameOf_dotfree (s : String) : '.' ∉ (localNameOf s).toList := by
  unfold localNameOf jsSplit
  have hne : (splitCharsOn '.' s.toList).map String.mk ≠ [] := by
    intro hnil
    exact splitCharsOn_ne_nil '.' s.toList (by simpa using hnil)
  rcases List.mem_map.mp (getLastD_mem _ "" hne) with ⟨seg, hseg, heq⟩
  rw [← heq]
  exact mem_splitCharsOn_not_mem '.' s.toList seg hseg

theorem typeRefOf_localName (q : Option String) (t : String) (d : TypeDef)
    (hdot : '.' ∉ t.toList) : localNameOf (typeRefOf q t d).name = t := by
  cases q with
  | none => exact localNameOf_of_not_mem hdot
  | some cn =>
    show localNameOf (cn ++ "." ++ t) = t
    rw [localNameOf_concat, localNameOf_of_not_mem hdot]

theorem mem_fileTypeMatches_shape {t : String} {q : Option String}
    {file : ParsedFile} {r : TypeReference} (h : r ∈ fileTypeMatches t q file) :
    ∃ d, r = typeRefOf q t d := by
  unfold fileTypeMatches at h
  rcases List.mem_flatMap.mp h with ⟨c, _, hc⟩
  rcases List.mem_append.mp hc with hs | he
  · rcases List.mem_map.mp hs with ⟨s, _, rfl⟩
    exact ⟨TypeDef.struct s, rfl⟩
  · rcases List.mem_map.mp he with ⟨e, _, rfl⟩
    exact ⟨TypeDef.enum e, rfl⟩

theorem resolveType_localName {t : String} {cf : ParsedFile} {ws : Workspace}
    {r : TypeReference} (h : resolveType t cf ws = some r) :
    localNameOf r.name = localNameOf t := by
  rw [resolveType_eq_head?] at h
  have hr : r ∈ specTypeMatches t cf ws := List.mem_of_mem_head? h
  unfold specTypeMatches at hr
  have hshape : ∃ d, r = typeRefOf (qualifierOf t) (localNameOf t) d := by
    rcases List.mem_append.mp hr with h1 | h2
    · exact mem_fileTypeMatches_shape h1
    · rcases List.mem_flatMap.mp h2 with ⟨e, _, he⟩
      exact mem_fileTypeMatches_shape he
  obtain ⟨d, rfl⟩ := hshape
  exact typeRefOf_localName _ _ _ (localNameOf_dotfree t)

/-- C2 (amended): candidates from the body scan always pass the
interface-convention filter, so when the function's parameter and
return-parameter declared types contribute no candidate whose unqualified
name matches the convention (capital `I` then a capital), no `TypeReference`
returned by `resolveTypes` has an unqualified name matching it.  (Candidates
from the declared parameter/return types bypass `addTypeIfValid`, so the
hypothesis cannot be dropped — see the counterexample.) -/
theorem resolveTypes_no_interface_names (functionInfo : FunctionInfo)
    (currentFile : ParsedFile) (ws : Workspace)
    (hsig : ∀ t ∈ signatureTypeNames functionInfo,
      isInterfaceName (localNameOf t) = false) :
    ∀ r ∈ resolveTypes functionInfo currentFile ws,
      isInterfaceName (localNameOf r.name) = false := by
  intro r hr
  unfold resolveTypes at hr
  rcases resolveTypesFold_mem currentFile ws
      (extractAllTypeNames functionInfo) ([], []) r hr with h | ⟨t, ht, hres⟩
  · simp at h
  · rw [resolveType_localName hres]
    have ht2 : t ∈ extractTypesFromBody functionInfo.fullSource
        (signatureTypeNames functionInfo) := ht
    rcases mem_extractTypesFromBody _ _ _ ht2 with hts | ⟨hint, hdot⟩
    · exact hsig t hts
    · rw [localNameOf_of_not_mem hdot]
      exact hint

/-- A struct whose name matches the interface-naming convention. -/
def c2Struct : StructInfo :=
  { name := "IFoo", members := [], fullSource := "struct IFoo { }",
    location := ⟨1, 0, 1, 15⟩, filePath := "d.sol", contractName := some "D" }

/-- The contract declaring the `IFoo` struct. -/
def c2Contract : ContractInfo :=
  { name := "D", kind := "contract", functions := [], structs := [c2Struct],
    enums := [], stateVariables := [], baseContracts := [],
    location := ⟨0, 0, 9, 1⟩, filePath := "d.sol" }

/-- The parsed file for the C2 counterexample. -/
def c2File : ParsedFile :=
  { filePath := "d.sol", contracts := [c2Contract], imports := [],
    pragmas := [] }

/-- The workspace for the C2 counterexample. -/
def c2Ws : Workspace := [("d.sol", c2File)]

/-- A function whose parameter declared type is the convention-matching
`IFoo`. -/
def c2Fi : FunctionInfo :=
  { name := "h", visibility := "public", stateMutability := none,
    parameters := [{ name := "x", typeName := "IFoo",
                     storageLocation := some "memory" }],
    returnParameters := [], modifiers := [], body := "{ }",
    fullSource := "function h(IFoo memory x) public { }",
    location := ⟨3, 0, 3, 36⟩, filePath := "d.sol" }

/-- The reference `resolveTypes` produces for `c2Fi`. -/
def c2Ref : TypeReference :=
  { name := "IFoo", kind := "struct",
    definition := some (TypeDef.struct c2Struct) }

/-- Counterexample to C2 as stated: a parameter whose declared type is the
convention-matching struct name `IFoo` flows past the interface filter (which
only guards the body scan), so `resolveTypes` returns a `TypeReference` whose
unqualified name matches `I[A-Z]`. -/
theorem resolveTypes_interface_name_cex :
    resolveTypes c2Fi c2File c2Ws = [c2Ref] ∧
      isInterfaceName (localNameOf c2Ref.name) = true :=
  ⟨by decide, by decide⟩

/-- Witness for the amended C2: a function whose signature contributes only
the non-interface name `Foo`; the hypothesis holds and the resolved output's
name passes the filter. -/
theorem resolveTypes_no_interface_names_witness :
    (∀ t ∈ signatureTypeNames c5Fi,
      isInterfaceName (localNameOf t) = false) ∧
      isInterfaceName (localNameOf c5Ref.name) = false :=
  ⟨by decide,
   resolveTypes_no_interface_names c5Fi c5File c5Ws (by decide) c5Ref
     (by decide)⟩

/-- The direct inheritors recorded for a name (the `inheritedBy.get(name)`
set, empty when absent). -/
def inheritorsOf (inheritedBy : List (String × List String)) (a : String) :
    List String :=
  (assocGet inheritedBy a).getD []

/-- Reachability along reverse-inheritance edges (one or more steps): each
step goes from a name to one of its recorded inheritors. -/
inductive RevReach (inheritedBy : List (String × List String)) :
    String → String → Prop
  | direct {a b : String} : b ∈ inheritorsOf inheritedBy a →
      RevReach inheritedBy a b
  | step {a b c : String} : b ∈ inheritorsOf inheritedBy a →
      RevReach inheritedBy b c → RevReach inheritedBy a c

/-- A declared-base edge of the built inheritance graph: some collected
contract entry named `derived` lists `base` among its declared bases. -/
def declaresBase (contractMap : List (String × ContractInfo))
    (derived base : String) : Prop :=
  ∃ e ∈ contractMap, e.1 = derived ∧ base ∈ e.2.baseContracts

/-- Reachability along declared-base edges (one or more steps). -/
inductive DeclReach (contractMap : List (String × ContractInfo)) :
    String → String → Prop
  | single {a b : String} : declaresBase contractMap a b →
      DeclReach contractMap a b
  | head {a b c : String} : declaresBase contractMap a b →
      DeclReach contractMap b c → DeclReach contractMap a c

theorem DeclReach.trans {m : List (String × ContractInfo)} {a b c : String}
    (h1 : DeclReach m a b) (h2 : DeclReach m b c) : DeclReach m a c := by
  induction h1 with
  | single e => exact DeclReach.head e h2
  | head e _ ih => exact DeclReach.head e (ih h2)

theorem collectInheritors_reach (ib : List (String × List String)) :
    ∀ (fuel : Nat) (name : String) (res : List String) (x : String),
      x ∈ collectInheritors ib fuel name res →
      x ∈ res ∨ RevReach ib name x := by
  intro fuel
  induction fuel with
  | zero => exact fun name res x h => Or.inl h
  | succ fuel ih =>
    intro name res x h
    unfold collectInheritors at h
    cases hget : assocGet ib name with
    | none => rw [hget] at h; exact Or.inl h
    | some inheritors =>
      rw [hget] at h
      replace h : x ∈ inheritors.foldl
          (fun res inheritor =>
            collectInheritors ib fuel inheritor (setAdd res inheritor)) res := h
      have hmem : ∀ i ∈ inheritors, i ∈ inheritorsOf ib name := by
        intro i hi
        unfold inheritorsOf
        rw [hget]
        exact hi
      clear hget
      induction inheritors generalizing res with
      | nil => exact Or.inl h
      | cons i rest ih2 =>
        rw [List.foldl_cons] at h
        rcases ih2 _ h (fun j hj => hmem j (List.mem_cons_of_mem _ hj))
          with h1 | h2
        · rcases ih i (setAdd res i) x h1 with h3 | h3
          · rcases mem_setAdd.mp h3 with h4 | heq
            · exact Or.inl h4
            · exact Or.inr (by
                rw [heq]
                exact RevReach.direct (hmem i (List.mem_cons_self _ _)))
          · exact Or.inr (RevReach.step
              (hmem i (List.mem_cons_self _ _)) h3)
        · exact Or.inr h2

theorem assocGet_assocSet {β : Type} (m : List (String × β)) (k k2 : String)
    (v : β) : assocGet (assocSet m k v) k2 =
      if k2 = k then some v else assocGet m k2 := by
  induction m with
  | nil =>
    by_cases h : k2 = k
    · simp [assocSet, assocGet, h]
    · simp [assocSet, assocGet, h, Ne.symm h]
  | cons e rest ih =>
    unfold assocSet
    by_cases he : e.1 = k
    · rw [if_pos he]
      by_cases h : k2 = k
      · simp [assocGet, h]
      · have h1 : ¬(k = k2) := fun hh => h hh.symm
        have h2 : ¬(e.1 = k2) := by rw [he]; exact h1
        unfold assocGet
        rw [List.find?_cons, List.find?_cons]
        have c1 : (decide ((k, v).1 = k2)) = false := by simpa using h1
        have c2 : (decide (e.1 = k2)) = false := by simpa using h2
        rw [c1, c2, if_neg h]
    · rw [if_neg he]
      by_cases h2 : e.1 = k2
      · have hk : ¬(k2 = k) := fun hh => he (by rw [h2, hh])
        unfold assocGet
        rw [List.find?_cons, List.find?_cons]
        have c2 : (decide (e.1 = k2)) = true := by simpa using h2
        rw [c2, if_neg hk]
      · unfold assocGet
        rw [List.find?_cons, List.find?_cons]
        have c2 : (decide (e.1 = k2)) = false := by simpa using h2
        rw [c2]
        exact ih

theorem innerFold_inv (m : List (String × ContractInfo))
    (e : String × ContractInfo) (he : e ∈ m) :
    ∀ (bases : List String) (ib : List (String × List String)),
      (∀ bn ∈ bases, bn ∈ e.2.baseContracts) →
      (∀ a b, b ∈ inheritorsOf ib a → declaresBase m b a) →
      ∀ a b, b ∈ inheritorsOf (bases.foldl
        (fun ib baseName => assocSet ib baseName
          (setAdd ((assocGet ib baseName).getD []) e.1)) ib) a →
      declaresBase m b a := by
  intro bases
  induction bases with
  | nil => exact fun ib _ hinv a b hb => hinv a b hb
  | cons bn rest ih =>
    intro ib hsub hinv a b hb
    rw [List.foldl_cons] at hb
    refine ih _ (fun x hx => hsub x (List.mem_cons_of_mem _ hx)) ?_ a b hb
    intro a2 b2 hb2
    unfold inheritorsOf at hb2
    rw [assocGet_assocSet] at hb2
    by_cases ha : a2 = bn
    · rw [if_pos ha] at hb2
      simp only [Option.getD_some] at hb2
      rcases mem_setAdd.mp hb2 with h4 | heq
      · refine hinv a2 b2 ?_
        unfold inheritorsOf
        rw [ha]
        exact h4
      · refine ⟨e, he, heq.symm, ?_⟩
        rw [ha]
        exact hsub bn (List.mem_cons_self _ _)
    · rw [if_neg ha] at hb2
      exact hinv a2 b2 hb2

theorem buildInheritedBy_sound (m : List (String × ContractInfo)) :
    ∀ a b, b ∈ inheritorsOf (buildInheritedBy m) a → declaresBase m b a := by
  unfold buildInheritedBy
  suffices h : ∀ (entries : List (String × ContractInfo))
      (ib0 : List (String × List String)),
      (∀ e ∈ entries, e ∈ m) →
      (∀ a b, b ∈ inheritorsOf ib0 a → declaresBase m b a) →
      ∀ a b, b ∈ inheritorsOf (entries.foldl
        (fun ib (e : String × ContractInfo) => e.2.baseContracts.foldl
          (fun ib baseName => assocSet ib baseName
            (setAdd ((assocGet ib baseName).getD []) e.1)) ib) ib0) a →
      declaresBase m b a by
    intro a b hb
    refine h m [] (fun e he => he) ?_ a b hb
    intro a b hb
    simp [inheritorsOf, assocGet] at hb
  intro entries
  induction entries with
  | nil => exact fun ib0 _ hinv a b hb => hinv a b hb
  | cons e rest ih =>
    intro ib0 hsub hinv a b hb
    rw [List.foldl_cons] at hb
    refine ih _ (fun e2 he2 => hsub e2 (List.mem_cons_of_mem _ he2)) ?_ a b hb
    exact innerFold_inv m e (hsub e (List.mem_cons_self _ _))
      e.2.baseContracts ib0 (fun bn hbn => hbn) hinv

theorem revReach_flip {m : List (String × ContractInfo)} {a c : String}
    (h : RevReach (buildInheritedBy m) a c) : DeclReach m c a := by
  induction h with
  | direct e => exact DeclReach.single (buildInheritedBy_sound m _ _ e)
  | step e _ ih =>
    exact ih.trans (DeclReach.single (buildInheritedBy_sound m _ _ e))

/-- C6: `getImplementingContracts(C)` contains `C` itself only when the built
inheritance graph has a cycle through `C`, i.e. `C` is reachable from itself
via one or more declared-base edges.  (The JavaScript `collectInheritors`
recursion has no visited set, so on a cyclic graph it can overflow the stack;
the theorem holds for every recursion-depth bound `fuel`.) -/
theorem getImplementingContracts_no_self (ws : Workspace) (fuel : Nat)
    (name : String)
    (h : name ∈ getImplementingContracts (buildInheritanceGraph ws) fuel name) :
    DeclReach (buildContractMap ws) name name := by
  unfold getImplementingContracts buildInheritanceGraph
    stateFromContractMap at h
  rcases collectInheritors_reach _ fuel name [] name h with h1 | h2
  · simp at h1
  · exact revReach_flip h2

/-- A self-inheriting contract, for the C6 witness. -/
def c6Contract : ContractInfo :=
  { name := "A", kind := "contract", functions := [], structs := [],
    enums := [], stateVariables := [], baseContracts := ["A"],
    location := ⟨0, 0, 2, 1⟩, filePath := "e.sol" }

/-- The workspace with the declared-base cycle `A is A`. -/
def c6Ws : Workspace :=
  [("e.sol",
    { filePath := "e.sol", contracts := [c6Contract], imports := [],
      pragmas := [] })]

/-- Witness for C6: with the cycle `A is A`, the contract does appear among
its own implementers, and the theorem yields the declared-base cycle. -/
theorem getImplementingContracts_no_self_witness :
    "A" ∈ getImplementingContracts (buildInheritanceGraph c6Ws) 2 "A" ∧
      DeclReach (buildContractMap c6Ws) "A" "A" :=
  ⟨by decide, getImplementingContracts_no_self c6Ws 2 "A" (by decide)⟩

/-- C7: in a workspace whose collected contracts are exactly a base contract
`A` (not an interface, no bases) with an implemented method `m` (non-empty
body) and a contract `B` (not an interface) whose only declared base is `A`
and which does not implement `m` itself, `findImplementations("A", "m")`
returns exactly one `ImplementationInfo`: found for `B`, with
`contractName = "A"`, `isInherited = true`, and `B`'s linearized chain
`["B", "A"]` (containing both `B` and `A`). -/
theorem findImplementations_inherited (cA cB : ContractInfo)
    (fm : FunctionInfo) (ws : Workspace) (fuel : Nat) (hfuel : 1 ≤ fuel)
    (hmap : buildContractMap ws = [("A", cA), ("B", cB)])
    (hAkind : cA.kind ≠ "interface")
    (hAbase : cA.baseContracts = [])
    (hAm : cA.functions.find? (fun f => f.name = "m") = some fm)
    (hbody1 : fm.body ≠ "")
    (hbody2 : jsTrim fm.body ≠ "")
    (hBkind : cB.kind ≠ "interface")
    (hBbase : cB.baseContracts = ["A"])
    (hBm : cB.functions.find? (fun f => f.name = "m") = none) :
    findImplementations (buildInheritanceGraph ws) fuel "A" "m" =
      [{ contractName := "A", contractKind := cA.kind, functionInfo := fm,
         filePath := cA.filePath, isInherited := true,
         inheritanceChain := ["B", "A"] }] := by
  obtain ⟨k, rfl⟩ : ∃ k, fuel = k + 1 := ⟨fuel - 1, by omega⟩
  unfold buildInheritanceGraph
  rw [hmap]
  have hgetA : assocGet [("A", cA), ("B", cB)] "A" = some cA := by
    simp [assocGet]
  have hgetB : assocGet [("A", cA), ("B", cB)] "B" = some cB := by
    simp [assocGet]
  have hib : buildInheritedBy [("A", cA), ("B", cB)] = [("A", ["B"])] := by
    simp [buildInheritedBy, hAbase, hBbase, assocGet, assocSet, setAdd]
  have hchA : computeInheritanceChain [("A", cA), ("B", cB)] 3 "A" [] =
      ["A"] := by
    simp [computeInheritanceChain, hgetA, hAbase]
  have hchAv : computeInheritanceChain [("A", cA), ("B", cB)] 2 "A" ["B"] =
      ["A"] := by
    simp [computeInheritanceChain, hgetA, hAbase]
  have hchB : computeInheritanceChain [("A", cA), ("B", cB)] 3 "B" [] =
      ["B", "A"] := by
    rw [computeInheritanceChain]
    rw [if_neg (by simp)]
    rw [hgetB]
    show cB.baseContracts.foldl
        (fun chain baseName =>
          (computeInheritanceChain [("A", cA), ("B", cB)] 2 baseName
            ["B"]).foldl
            (fun chain n => if chain.contains n then chain else chain ++ [n])
            chain)
        ["B"] = ["B", "A"]
    rw [hBbase]
    simp only [List.foldl_cons, List.foldl_nil, hchAv]
    simp
  have hst : stateFromContractMap [("A", cA), ("B", cB)] =
      { contractMap := [("A", cA), ("B", cB)],
        inheritedBy := [("A", ["B"])],
        inheritanceChains := [("A", ["A"]), ("B", ["B", "A"])] } := by
    unfold stateFromContractMap
    rw [hib]
    simp [assocSet, hchA, hchB]
  rw [hst]
  set st2 : InheritanceState :=
    { contractMap := [("A", cA), ("B", cB)],
      inheritedBy := [("A", ["B"])],
      inheritanceChains := [("A", ["A"]), ("B", ["B", "A"])] } with hst2
  have himpl : getImplementingContracts st2 (k + 1) "A" = ["B"] := by
    unfold getImplementingContracts
    rw [collectInheritors]
    have hg : assocGet st2.inheritedBy "A" = some ["B"] := by
      simp [hst2, assocGet]
    rw [hg]
    simp only [List.foldl_cons, List.foldl_nil]
    cases k with
    | zero => simp [collectInheritors, setAdd]
    | succ k2 =>
      rw [collectInheritors]
      have h2 : assocGet st2.inheritedBy "B" = none := by
        simp [hst2, assocGet]
      rw [h2]
      simp [setAdd]
  have hgA2 : assocGet st2.contractMap "A" = some cA := by
    simp [hst2, assocGet]
  have hgB2 : assocGet st2.contractMap "B" = some cB := by
    simp [hst2, assocGet]
  have hstepB : methodLookupStep st2 "B" "m" ["B", "A"] "B" = none := by
    unfold methodLookupStep
    rw [hgB2]
    simp only [if_neg hBkind, hBm]
  have hstepA : methodLookupStep st2 "B" "m" ["B", "A"] "A" =
      some { contractName := "A", contractKind := cA.kind, functionInfo := fm,
             filePath := cA.filePath, isInherited := true,
             inheritanceChain := ["B", "A"] } := by
    unfold methodLookupStep
    rw [hgA2]
    simp only [if_neg hAkind, hAm]
    rw [if_pos ⟨hbody1, hbody2⟩]
    simp
  have hfm2 : findMethodInContract st2 "B" "m" =
      some { contractName := "A", contractKind := cA.kind, functionInfo := fm,
             filePath := cA.filePath, isInherited := true,
             inheritanceChain := ["B", "A"] } := by
    unfold findMethodInContract
    have hch : assocGet st2.inheritanceChains "B" = some ["B", "A"] := by
      simp [hst2, assocGet]
    rw [hch]
    simp only [Option.getD_some]
    rw [List.findSome?_cons, hstepB]
    rw [List.findSome?_cons, hstepA]
  unfold findImplementations
  rw [himpl]
  simp only [List.foldl_cons, List.foldl_nil]
  rw [hgB2]
  simp only [if_neg hBkind, hfm2]
  simp

/-- The implemented method `m` of the base contract, for the C7 witness. -/
def c7Fm : FunctionInfo :=
  { name := "m", visibility := "public", stateMutability := none,
    parameters := [], returnParameters := [], modifiers := [],
    body := "{ doIt(); }", fullSource := "function m() public { doIt(); }",
    location := ⟨2, 0, 2, 31⟩, filePath := "f.sol" }

/-- The base contract `A` implementing `m`, for the C7 witness. -/
def c7A : ContractInfo :=
  { name := "A", kind := "contract", functions := [c7Fm], structs := [],
    enums := [], stateVariables := [], baseContracts := [],
    location := ⟨1, 0, 3, 1⟩, filePath := "f.sol" }

/-- The derived contract `B is A` without its own `m`, for the C7 witness. -/
def c7B : ContractInfo :=
  { name := "B", kind := "contract", functions := [], structs := [],
    enums := [], stateVariables := [], baseContracts := ["A"],
    location := ⟨5, 0, 6, 1⟩, filePath := "f.sol" }

/-- The workspace for the C7 witness. -/
def c7Ws : Workspace :=
  [("f.sol",
    { filePath := "f.sol", contracts := [c7A, c7B], imports := [],
      pragmas := [] })]

/-- Witness for C7 at the concrete two-contract workspace. -/
theorem findImplementations_inherited_witness :
    buildContractMap c7Ws = [("A", c7A), ("B", c7B)] ∧
      findImplementations (buildInheritanceGraph c7Ws) 1 "A" "m" =
        [{ contractName := "A", contractKind := c7A.kind, functionInfo := c7Fm,
           filePath := c7A.filePath, isInherited := true,
           inheritanceChain := ["B", "A"] }] :=
  ⟨by decide,
   findImplementations_inherited c7A c7B c7Fm c7Ws 1 (by decide) (by decide)
     (by decide) (by decide) (by decide) (by decide) (by decide) (by decide)
     (by decide) (by decide)⟩

/-- C4: with visitor callbacks of the declared type `boolean | void`, a
truthy result (within that type, exactly the value `true`, which is what the
source's `shouldStop === true` tests) makes `traverse` skip the node's
children, while a falsy result (`false` or `undefined`) or an absent callback
makes it descend into them. -/
theorem traverse_stop_iff_truthy {σ : Type} (fuel : Nat) (vis : Visitor σ)
    (node : ASTNode) (parent : Option ASTNode) (st : σ) :
    (∀ (cb : σ → ASTNode → Option ASTNode → σ × Option Bool) (st1 : σ)
       (r : Option Bool), vis node.type = some cb →
       cb st node parent = (st1, r) →
       ((jsTruthy r = true → ASTTraverser.traverse (fuel + 1) vis node parent st = st1) ∧
        (jsTruthy r = false →
          ASTTraverser.traverse (fuel + 1) vis node parent st =
            ASTTraverser.traverseChildren fuel vis node st1))) ∧
    (vis node.type = none →
      ASTTraverser.traverse (fuel + 1) vis node parent st =
        ASTTraverser.traverseChildren fuel vis node st) := by
  constructor
  · intro cb st1 r hcb hret
    constructor
    · intro htruthy
      have hr : r = some true := by
        cases r with
        | none => simp [jsTruthy] at htruthy
        | some b =>
          cases b with
          | false => simp [jsTruthy] at htruthy
          | true => rfl
      simp [ASTTraverser.traverse, hcb, hret, hr]
    · intro hfalsy
      have hr : r ≠ some true := by
        cases r with
        | none => simp
        | some b =>
          cases b with
          | false => simp
          | true => simp [jsTruthy] at hfalsy
      simp [ASTTraverser.traverse, ASTTraverser.traverseChildren, hcb, hret, hr]
  · intro hnone
    simp [ASTTraverser.traverse, ASTTraverser.traverseChildren, hnone]

/-- A leaf node for the traversal witness. -/
def c4Node : ASTNode := ASTNode.mk "Widget" none []

/-- A visitor whose `Widget` callback adds 7 and stops. -/
def c4Vis : Visitor Nat :=
  fun ty =>
    if ty = "Widget" then some (fun st _ _ => (st + 7, some true)) else none

/-- Witness for C4: the stopping callback's output state is the whole
traversal result. -/
theorem traverse_stop_iff_truthy_witness :
    jsTruthy (some true) = true ∧ ASTTraverser.traverse (0 + 1) c4Vis c4Node none 0 = 7 :=
  ⟨rfl,
   ((traverse_stop_iff_truthy 0 c4Vis c4Node none 0).1
     (fun st _ _ => (st + 7, some true)) 7 (some true) rfl rfl).1 rfl⟩

theorem traverse_simple {σ : Type} (t : String) (g : σ → ASTNode → σ) :
    ∀ (fuel : Nat) (node : ASTNode) (parent : Option ASTNode) (st : σ),
      ASTTraverser.traverse fuel (mkSimpleVisitor t g) node parent st =
        (nodesVisited fuel node).foldl
          (fun s n => if n.type = t then g s n else s) st := by
  intro fuel
  induction fuel with
  | zero =>
    intro node parent st
    simp [ASTTraverser.traverse, nodesVisited]
  | succ fuel ih =>
    intro node parent st
    have hinner : ∀ (cs : List ASTNode) (s0 : σ),
        cs.foldl
          (fun s c =>
            ASTTraverser.traverse fuel (mkSimpleVisitor t g) c (some node) s)
          s0 =
        cs.foldl
          (fun s c => (nodesVisited fuel c).foldl
            (fun s n => if n.type = t then g s n else s) s) s0 := by
      intro cs
      induction cs with
      | nil => intro s0; rfl
      | cons c cs2 ih2 =>
        intro s0
        rw [List.foldl_cons, List.foldl_cons, ih, ih2]
    rw [nodesVisited, List.foldl_cons, List.foldl_flatten, List.foldl_map]
    by_cases ht : node.type = t
    · simp only [ASTTraverser.traverse, mkSimpleVisitor, if_pos ht]
      rw [hinner]
      simp
    · simp only [ASTTraverser.traverse, mkSimpleVisitor, if_neg ht]
      rw [hinner]
      simp

/-- The containment test applied to a node (false without a `loc`). -/
def nodeContains (line column : Nat) (n : ASTNode) : Bool :=
  match n.loc with
  | some loc => containsPos loc line column
  | none => false

/-- The weighted span extent of a node (0 without a `loc`; only applied to
nodes with one). -/
def nodeRange (n : ASTNode) : Int :=
  match n.loc with
  | some loc => rangeOf loc
  | none => 0

/-- The candidate-update of `findAtPosition` on a containing node: keep the
node when its weighted extent is strictly below the best seen. -/
def minStep (line column : Nat) (st : Option ASTNode × Option Int)
    (n : ASTNode) : Option ASTNode × Option Int :=
  match st.2 with
  | none => (some n, some (nodeRange n))
  | some sr =>
    if nodeRange n < sr then (some n, some (nodeRange n)) else st

theorem fapStep_eq (line column : Nat) (st : Option ASTNode × Option Int)
    (n : ASTNode) :
    fapStep line column st n =
      if nodeContains line column n then minStep line column st n else st := by
  unfold fapStep minStep nodeContains nodeRange
  cases hloc : n.loc with
  | none => simp
  | some loc =>
    by_cases hc : containsPos loc line column
    · simp only [hc, if_true]
      cases st.2 <;> simp
    · have : containsPos loc line column = false := by simpa using hc
      simp [this]

/-- The `FunctionDefinition` nodes of a full traversal, in visiting order. -/
def fdNodes (fuel : Nat) (node : ASTNode) : List ASTNode :=
  (nodesVisited fuel node).filter (fun n => n.type = "FunctionDefinition")

/-- The visited `FunctionDefinition` nodes whose span contains the position. -/
def containingFd (fuel : Nat) (node : ASTNode) (line column : Nat) :
    List ASTNode :=
  (fdNodes fuel node).filter (nodeContains line column)

/-- The first element attaining the minimum of `f`, updating only on strict
decrease (auxiliary). -/
def firstMinAux (f : ASTNode → Int) : List ASTNode → ASTNode → ASTNode
  | [], best => best
  | x :: xs, best => firstMinAux f xs (if f x < f best then x else best)

/-- The first element of the list attaining the minimum of `f` (the earliest
among minimal, since later elements replace the best only on a strictly
smaller value). -/
def firstMin (f : ASTNode → Int) : List ASTNode → Option ASTNode
  | [] => none
  | x :: xs => some (firstMinAux f xs x)

theorem foldl_guard_filter_prop {α σ : Type} (q : α → Prop) [DecidablePred q]
    (g : σ → α → σ) :
    ∀ (l : List α) (st : σ),
      l.foldl (fun s n => if q n then g s n else s) st =
        (l.filter (fun n => decide (q n))).foldl g st := by
  intro l
  induction l with
  | nil => intro st; rfl
  | cons a t ih =>
    intro st
    rw [List.foldl_cons, List.filter_cons]
    by_cases h : q a
    · simp only [if_pos h, decide_eq_true h, List.foldl_cons]
      exact ih _
    · have hd : decide (q a) = false := by simpa using h
      simp only [if_neg h, hd, Bool.false_eq_true, if_false]
      exact ih _

theorem foldl_guard_filter_bool {α σ : Type} (p : α → Bool) (g : σ → α → σ) :
    ∀ (l : List α) (st : σ),
      l.foldl (fun s n => if p n then g s n else s) st =
        (l.filter p).foldl g st := by
  intro l
  induction l with
  | nil => intro st; rfl
  | cons a t ih =>
    intro st
    rw [List.foldl_cons, List.filter_cons]
    by_cases h : p a
    · simp only [h, if_true, List.foldl_cons]
      exact ih _
    · have hd : p a = false := by simpa using h
      simp only [hd, Bool.false_eq_true, if_false]
      exact ih _

theorem foldl_minStep_some (line column : Nat) :
    ∀ (L : List ASTNode) (b : ASTNode),
      L.foldl (minStep line column) (some b, some (nodeRange b)) =
        (some (firstMinAux nodeRange L b),
          some (nodeRange (firstMinAux nodeRange L b))) := by
  intro L
  induction L with
  | nil => intro b; rfl
  | cons x xs ih =>
    intro b
    rw [List.foldl_cons, firstMinAux]
    by_cases h : nodeRange x < nodeRange b
    · have hstep : minStep line column (some b, some (nodeRange b)) x =
          (some x, some (nodeRange x)) := by
        simp [minStep, h]
      rw [hstep, if_pos h]
      exact ih x
    · have hstep : minStep line column (some b, some (nodeRange b)) x =
          (some b, some (nodeRange b)) := by
        simp [minStep, h]
      rw [hstep, if_neg h]
      exact ih b

theorem foldl_fapStep_firstMin (line column : Nat) (L : List ASTNode) :
    (L.foldl (fapStep line column) (none, none)).1 =
      firstMin nodeRange (L.filter (nodeContains line column)) := by
  have h1 : L.foldl (fapStep line column) (none, none) =
      (L.filter (nodeContains line column)).foldl (minStep line column)
        (none, none) := by
    rw [← foldl_guard_filter_bool]
    congr 1
    funext s n
    exact fapStep_eq line column s n
  rw [h1]
  cases hf : L.filter (nodeContains line column) with
  | nil => rfl
  | cons x xs =>
    rw [List.foldl_cons]
    have hstep : minStep line column (none, none) x =
        (some x, some (nodeRange x)) := rfl
    rw [hstep, foldl_minStep_some]
    rfl

theorem firstMinAux_mem (f : ASTNode → Int) :
    ∀ (L : List ASTNode) (b : ASTNode),
      firstMinAux f L b = b ∨ firstMinAux f L b ∈ L := by
  intro L
  induction L with
  | nil => intro b; exact Or.inl rfl
  | cons x xs ih =>
    intro b
    rw [firstMinAux]
    by_cases hc : f x < f b
    · rw [if_pos hc]
      rcases ih x with h | h
      · exact Or.inr (by rw [h]; exact List.mem_cons_self _ _)
      · exact Or.inr (List.mem_cons_of_mem _ h)
    · rw [if_neg hc]
      rcases ih b with h | h
      · exact Or.inl h
      · exact Or.inr (List.mem_cons_of_mem _ h)

theorem firstMinAux_le (f : ASTNode → Int) :
    ∀ (L : List ASTNode) (b : ASTNode),
      f (firstMinAux f L b) ≤ f b ∧
        ∀ m ∈ L, f (firstMinAux f L b) ≤ f m := by
  intro L
  induction L with
  | nil => intro b; exact ⟨le_refl _, by simp⟩
  | cons x xs ih =>
    intro b
    rw [firstMinAux]
    by_cases hc : f x < f b
    · rw [if_pos hc]
      obtain ⟨h1, h2⟩ := ih x
      refine ⟨le_trans h1 (le_of_lt hc), ?_⟩
      intro m hm
      rcases List.mem_cons.mp hm with rfl | hm2
      · exact h1
      · exact h2 m hm2
    · rw [if_neg hc]
      obtain ⟨h1, h2⟩ := ih b
      refine ⟨h1, ?_⟩
      intro m hm
      rcases List.mem_cons.mp hm with rfl | hm2
      · exact le_trans h1 (not_lt.mp hc)
      · exact h2 m hm2

theorem firstMin_min (f : ASTNode → Int) (L : List ASTNode) (n : ASTNode)
    (hn : firstMin f L = some n) : n ∈ L ∧ ∀ m ∈ L, f n ≤ f m := by
  cases L with
  | nil => simp [firstMin] at hn
  | cons x xs =>
    rw [firstMin] at hn
    obtain rfl : firstMinAux f xs x = n := Option.some.inj hn
    constructor
    · rcases firstMinAux_mem f xs x with h | h
      · rw [h]; exact List.mem_cons_self _ _
      · exact List.mem_cons_of_mem _ h
    · intro m hm
      obtain ⟨h1, h2⟩ := firstMinAux_le f xs x
      rcases List.mem_cons.mp hm with rfl | hm2
      · exact h1
      · exact h2 m hm2

/-- C3 (amended): restricted to `FunctionDefinition` nodes whose span
contains the position, `findAtPosition` returns the first visited node
minimizing the weighted extent `lineSpan * 1000 + columnSpan` (updating only
on strict decrease, so the earliest minimal node wins), and `none` exactly
when no visited function definition contains the position.  This is not the
lexicographic (line-span, column-span) order: a column-span difference of
1000 or more outweighs a line-span difference (see the counterexample). -/
theorem findAtPosition_weighted_min :
    (∀ (fuel : Nat) (node : ASTNode) (line column : Nat),
       findAtPosition fuel node line column =
         firstMin nodeRange (containingFd fuel node line column)) ∧
    (∀ (fuel : Nat) (node : ASTNode) (line column : Nat) (n : ASTNode),
       findAtPosition fuel node line column = some n →
         n ∈ containingFd fuel node line column ∧
           ∀ m ∈ containingFd fuel node line column,
             nodeRange n ≤ nodeRange m) ∧
    (∀ (fuel : Nat) (node : ASTNode) (line column : Nat),
       findAtPosition fuel node line column = none ↔
         containingFd fuel node line column = []) := by
  have hmain : ∀ (fuel : Nat) (node : ASTNode) (line column : Nat),
      findAtPosition fuel node line column =
        firstMin nodeRange (containingFd fuel node line column) := by
    intro fuel node line column
    unfold findAtPosition
    rw [traverse_simple, foldl_guard_filter_prop, foldl_fapStep_firstMin]
    rfl
  refine ⟨hmain, ?_, ?_⟩
  · intro fuel node line column n hn
    rw [hmain] at hn
    exact firstMin_min _ _ _ hn
  · intro fuel node line column
    rw [hmain]
    cases hL : containingFd fuel node line column with
    | nil => simp [firstMin]
    | cons x xs => simp [firstMin]

/-- A function-definition node spanning one long line (columns 0 to 1500 of
line 5). -/
def fdA : ASTNode :=
  ASTNode.mk "FunctionDefinition" (some ⟨5, 0, 5, 1500⟩) []

/-- A function-definition node spanning from line 4 to the start of line 5. -/
def fdB : ASTNode :=
  ASTNode.mk "FunctionDefinition" (some ⟨4, 0, 5, 0⟩) []

/-- A source unit holding both function definitions. -/
def c3Ast : ASTNode :=
  ASTNode.mk "SourceUnit" none
    [NodeProp.mk "children" (PropVal.arr [PropVal.node fdA, PropVal.node fdB])]

/-- The line-span of a node's span. -/
def lineSpanOf (n : ASTNode) : Int :=
  match n.loc with
  | some loc => (loc.endLine : Int) - loc.startLine
  | none => 0

/-- Counterexample to C3 as stated: both nodes contain position (5, 0), `fdA`
has the strictly smaller line-span (0 versus 1), yet `findAtPosition` returns
`fdB`, because `fdB`'s weighted extent 1000 is below `fdA`'s 1500 — the
tie-break is a weighted sum, not lexicographic on (line-span, column-span). -/
theorem findAtPosition_tiebreak_cex :
    containingFd 3 c3Ast 5 0 = [fdA, fdB] ∧
      lineSpanOf fdA < lineSpanOf fdB ∧
      findAtPosition 3 c3Ast 5 0 = some fdB ∧
      fdA.loc ≠ fdB.loc :=
  ⟨rfl, by decide, rfl, by decide⟩

/-- Witness for the amended C3 at the concrete two-function tree. -/
theorem findAtPosition_weighted_min_witness :
    findAtPosition 3 c3Ast 5 0 = some fdB ∧
      (fdB ∈ containingFd 3 c3Ast 5 0 ∧
        ∀ m ∈ containingFd 3 c3Ast 5 0, nodeRange fdB ≤ nodeRange m) :=
  ⟨rfl, findAtPosition_weighted_min.2.1 3 c3Ast 5 0 fdB rfl⟩
